import Mathlib

/-! FancyZones `LayoutAssignedWindows`

A shallow embedding of
`src/modules/fancyzones/FancyZonesLib/LayoutAssignedWindows.cpp`
and a verification of its bookkeeping: the window → zone-set index, the
zone-set → tab-order registry, ordered insertion by persisted sort key and
dismissal.

Conventions of the embedding

* `HWND` is a natural number, `nullptr` is `0`.
* A `std::map` is a list of key/value pairs; the operations keep it sorted by
  key when it was sorted, and the lookup lemmas do not need sortedness.
* `std::vector` is `List`; iterators are positions.
* `size_t` arithmetic is arithmetic on `Nat` modulo `2 ^ 64`.
* The window property store, the liveness test, the virtual-desktop test and
  the z-order walk are outside the translation unit; they appear as a field of
  the state or as parameters.
-/

namespace FancyZones

/-! ## Basic types -/

/-- Window handle; the null handle is `0`. -/
abbrev HWND := Nat

/-- Index of a zone in the active layout. -/
abbrev ZoneIndex := Nat

/-- The zone combination of a window: a `std::vector<ZoneIndex>`. -/
abbrev ZoneIndexSet := List ZoneIndex

/-- Number of values of `size_t`. -/
def sizeModulus : Nat := 2 ^ 64

/-- Value of `INT64_MAX`. -/
def INT64_MAX : Int := 2 ^ 63 - 1

/-! ## Ordered maps -/

/-- The comparison a `std::map` uses to arrange its keys. -/
class KeyOrder (K : Type) where
  /-- The comparison `std::less<K>`. -/
  lt : K → K → Bool

/-- The comparison of a key type is a strict total order. -/
class LawfulKeyOrder (K : Type) [KeyOrder K] : Prop where
  /-- No key is below itself. -/
  lt_irrefl : ∀ a : K, KeyOrder.lt a a = false
  /-- The comparison is transitive. -/
  lt_trans : ∀ a b c : K, KeyOrder.lt a b = true → KeyOrder.lt b c = true →
    KeyOrder.lt a c = true
  /-- Two different keys are comparable. -/
  lt_total : ∀ a b : K, KeyOrder.lt a b = false → a ≠ b → KeyOrder.lt b a = true

/-- Lexicographic comparison of two vectors, as `operator<` on `std::vector`. -/
def vectorLess : List Nat → List Nat → Bool
  | [], [] => false
  | [], _ :: _ => true
  | _ :: _, [] => false
  | a :: as, b :: bs =>
    if a < b then true else if b < a then false else vectorLess as bs

instance instKeyOrderHWND : KeyOrder HWND where
  lt a b := decide (a < b)

instance instKeyOrderZoneIndexSet : KeyOrder ZoneIndexSet where
  lt := vectorLess

/-- A `std::map<K, V>`: its entries in iteration order. -/
abbrev StdMap (K V : Type) := List (K × V)

namespace StdMap

variable {K V : Type}

/-- Lookup as `std::map::find`: the value stored under `k`, if any. -/
def find [DecidableEq K] : StdMap K V → K → Option V
  | [], _ => none
  | (k', v) :: rest, k => if k' = k then some v else find rest k

/-- Membership test as `std::map::contains`. -/
def contains [DecidableEq K] (m : StdMap K V) (k : K) : Bool :=
  (find m k).isSome

/-- Store `v` under `k`, replacing the old value or adding the entry at its
place in key order: the effect of `m[k] = v`. -/
def assign [DecidableEq K] [KeyOrder K] (k : K) (v : V) : StdMap K V → StdMap K V
  | [] => [(k, v)]
  | (k', v') :: rest =>
    if KeyOrder.lt k k' then (k, v) :: (k', v') :: rest
    else if k = k' then (k, v) :: rest
    else (k', v') :: assign k v rest

/-- Removal as `std::map::erase(key)`. -/
def erase [DecidableEq K] (k : K) (m : StdMap K V) : StdMap K V :=
  m.filter (fun p => !decide (p.1 = k))

/-- The map after evaluating `m[k]`: an absent key is added with the default
value. -/
def subscript [DecidableEq K] [KeyOrder K] (m : StdMap K V) (k : K) (dflt : V) : StdMap K V :=
  if contains m k then m else assign k dflt m

/-- The value denoted by `m[k]`. -/
def value [DecidableEq K] (m : StdMap K V) (k : K) (dflt : V) : V :=
  (find m k).getD dflt

/-- The entries are in strictly increasing key order, as in every `std::map`. -/
def Sorted [KeyOrder K] (m : StdMap K V) : Prop :=
  List.Pairwise (fun a b => KeyOrder.lt a.1 b.1 = true) m

end StdMap

/-! ## State -/

/-- The two members of `LayoutAssignedWindows` together with the window
property store that keeps the tab sort keys. -/
structure State where
  /-- The member `m_windowIndexSet`: window → zone combination. -/
  m_windowIndexSet : StdMap HWND ZoneIndexSet
  /-- The member `m_windowsByIndexSets`: zone combination → tab order. -/
  m_windowsByIndexSets : StdMap ZoneIndexSet (List HWND)
  /-- The sort key property of every window, held by the property store. -/
  tabSortKey : HWND → Option Nat

/-- The state of a freshly constructed object, over a given property store. -/
def State.empty (tabSortKey : HWND → Option Nat) : State :=
  ⟨[], [], tabSortKey⟩

/-- Modelled from the spec: `FancyZonesWindowProperties::GetTabSortKeyWithinZone`
is defined outside this file; section 6 gives it as
`get_tab_sort_key(window) -> optional<integer>`, reading the persisted key. -/
def GetTabSortKeyWithinZone (s : State) (window : HWND) : Option Nat :=
  s.tabSortKey window

/-- Modelled from the spec: `FancyZonesWindowProperties::SetTabSortKeyWithinZone`
is defined outside this file; section 6 gives it as
`set_tab_sort_key(window, optional<integer>)`, persisting the key, where the
absent value clears it. -/
def SetTabSortKeyWithinZone (s : State) (window : HWND) (key : Option Nat) : State :=
  { s with tabSortKey := fun w => if w = window then key else s.tabSortKey w }

/-- The tab order stored for a zone combination, empty when there is none. -/
def State.group (s : State) (indexSet : ZoneIndexSet) : List HWND :=
  s.m_windowsByIndexSets.value indexSet []

/-! ## Operations -/

/-- The lambda `predicate` of `InsertWindowIntoZone`: the tab has a sort key
and it is greater than the key of the window being inserted. -/
def predicate (s : State) (tabSortKeyWithinZone : Nat) (tab : HWND) : Bool :=
  match GetTabSortKeyWithinZone s tab with
  | some currentTabSortKeyWithinZone =>
    decide (currentTabSortKeyWithinZone > tabSortKeyWithinZone)
  | none => false

/-- Method `LayoutAssignedWindows::InsertWindowIntoZone`. With a key the window
goes to the position returned by `std::find_if`; without one it goes to the end
and gets a fresh key. -/
def InsertWindowIntoZone (s : State) (window : HWND) (tabSortKeyWithinZone : Option Nat)
    (indexSet : ZoneIndexSet) : State :=
  match tabSortKeyWithinZone with
  | some key =>
    let windows := s.m_windowsByIndexSets.value indexSet []
    let position := windows.findIdx (predicate s key)
    let s1 := { s with
      m_windowsByIndexSets :=
        s.m_windowsByIndexSets.assign indexSet (windows.insertIdx position window) }
    SetTabSortKeyWithinZone s1 window (some key)
  | none =>
    let windows := s.m_windowsByIndexSets.value indexSet []
    let key : Nat :=
      match windows.getLast? with
      | some prevTab =>
        match GetTabSortKeyWithinZone s prevTab with
        | some prevTabSortKeyWithinZone => (prevTabSortKeyWithinZone + 1) % sizeModulus
        | none => 0
      | none => 0
    let s1 := { s with
      m_windowsByIndexSets := s.m_windowsByIndexSets.assign indexSet (windows ++ [window]) }
    SetTabSortKeyWithinZone s1 window (some key)

/-- Method `LayoutAssignedWindows::Dismiss`. Erasing the position returned by
`std::find` removes the first occurrence; when the window is not in the
vector the C++ behaviour is undefined and the vector is left as it is here. -/
def Dismiss (s : State) (window : HWND) : State :=
  let s1 :=
    match s.m_windowIndexSet.find window with
    | some indexSet =>
      let windows := (s.m_windowsByIndexSets.value indexSet []).erase window
      let byIndexSets := s.m_windowsByIndexSets.assign indexSet windows
      { s with
        m_windowsByIndexSets :=
          if windows.isEmpty then byIndexSets.erase indexSet else byIndexSets
        m_windowIndexSet := s.m_windowIndexSet.erase window }
    | none => s
  SetTabSortKeyWithinZone s1 window none

/-- One turn of the loop in `Assign`: `m_windowIndexSet[window].push_back(index)`. -/
def pushIndex (window : HWND) (s : State) (index : ZoneIndex) : State :=
  { s with
    m_windowIndexSet :=
      s.m_windowIndexSet.assign window (s.m_windowIndexSet.value window [] ++ [index]) }

/-- Method `LayoutAssignedWindows::Assign`. The call of `DisableRoundCorners` only
restyles the window and leaves no trace in the state. -/
def Assign (s : State) (window : HWND) (zones : ZoneIndexSet) : State :=
  let s1 := Dismiss s window
  let s2 := zones.foldl (pushIndex window) s1
  let tabSortKeyWithinZone := GetTabSortKeyWithinZone s2 window
  InsertWindowIntoZone s2 window tabSortKeyWithinZone zones

/-- Method `LayoutAssignedWindows::SnappedWindows`. -/
def SnappedWindows (s : State) : StdMap HWND ZoneIndexSet :=
  s.m_windowIndexSet

/-- Method `LayoutAssignedWindows::GetZoneIndexSetFromWindow`. -/
def GetZoneIndexSetFromWindow (s : State) (window : HWND) : ZoneIndexSet :=
  match s.m_windowIndexSet.find window with
  | some zones => zones
  | none => []

/-- Method `LayoutAssignedWindows::IsZoneEmpty`. -/
def IsZoneEmpty (s : State) (zoneIndex : ZoneIndex) : Bool :=
  s.m_windowIndexSet.all (fun entry => !decide (zoneIndex ∈ entry.2))

/-- Method `LayoutAssignedWindows::GetNextZoneWindow`, with the object after the call
(the method is not `const`: it evaluates `m_windowsByIndexSets[indexSet]`).
When `current` is not in the vector and `reverse` is false, `++iter` moves
past the end, which is undefined in C++; the null handle is returned here. -/
def GetNextZoneWindow (s : State) (indexSet : ZoneIndexSet) (current : HWND)
    (reverse : Bool) : HWND × State :=
  if !s.m_windowsByIndexSets.contains indexSet then (0, s)
  else
    let s1 := { s with m_windowsByIndexSets := s.m_windowsByIndexSets.subscript indexSet [] }
    let assignedWindows := s1.m_windowsByIndexSets.value indexSet []
    if assignedWindows.isEmpty then (0, s1)
    else
      let iter := assignedWindows.indexOf current
      if !reverse then
        let iter := iter + 1
        (if iter = assignedWindows.length then assignedWindows.headD 0
          else assignedWindows.getD iter 0, s1)
      else
        (if iter = 0 then assignedWindows.getLastD 0
          else assignedWindows.getD (iter - 1) 0, s1)

/-- What a call of `CycleWindows` leaves behind: the object, the windows it
dismissed (oldest first) and the window it switched to, if any. -/
structure CycleResult where
  /-- The state after the call. -/
  state : State
  /-- The windows handed to `Dismiss`, in call order. -/
  dismissed : List HWND
  /-- The window handed to `SwitchToWindow`. -/
  activated : Option HWND

/-- The `for (;;)` loop of `CycleWindows`. Each turn spends one unit of fuel;
`none` means the fuel ran out before the loop ended. `IsWindow` is the
liveness test and `IsWindowOnCurrentDesktop` the virtual-desktop test. -/
def CycleWindowsLoop (IsWindow IsWindowOnCurrentDesktop : HWND → Bool)
    (indexSet : ZoneIndexSet) (window : HWND) (reverse : Bool) :
    Nat → State → List HWND → Option CycleResult
  | 0, _, _ => none
  | fuel + 1, s, dismissed =>
    let (next, s1) := GetNextZoneWindow s indexSet window reverse
    if next = 0 then some ⟨s1, dismissed, none⟩
    else if !IsWindow next then
      CycleWindowsLoop IsWindow IsWindowOnCurrentDesktop indexSet window reverse fuel
        (Dismiss s1 next) (dismissed ++ [next])
    else if IsWindowOnCurrentDesktop next then some ⟨s1, dismissed, some next⟩
    else some ⟨s1, dismissed, none⟩

/-- Method `LayoutAssignedWindows::CycleWindows`, run with the given fuel. -/
def CycleWindows (IsWindow IsWindowOnCurrentDesktop : HWND → Bool) (fuel : Nat)
    (s : State) (window : HWND) (reverse : Bool) : Option CycleResult :=
  let indexSet := GetZoneIndexSetFromWindow s window
  if indexSet.isEmpty then some ⟨s, [], none⟩
  else CycleWindowsLoop IsWindow IsWindowOnCurrentDesktop indexSet window reverse fuel s []

/-- The walk of `GetLowestZOrderWindow` from a given window of the desktop's
top-to-bottom order, `zOrder` counting the windows passed so far. The walk
ends at the first null handle. -/
def lowestZOrderWalk (windows : List HWND) : List HWND → Int → HWND × Int
  | [], _ => (0, 0)
  | window :: below, zOrder =>
    if window = 0 then (0, 0)
    else if window ∈ windows then (window, zOrder)
    else lowestZOrderWalk windows below (zOrder + 1)

/-- The free function `GetLowestZOrderWindow`; `desktop` lists the top-level
windows from top to bottom, as `GetTopWindow` and `GetWindow(GW_HWNDNEXT)`
enumerate them. -/
def GetLowestZOrderWindow (desktop : List HWND) (windows : List HWND) : HWND × Int :=
  lowestZOrderWalk windows desktop 0

/-- The second loop of `GetTopmostWindowFromTargetZone`, over the collected
zone combinations. -/
def topmostLoop (desktop : List HWND) :
    List ZoneIndexSet → State → HWND → Int → HWND × State
  | [], s, topmostWindow, _ => (topmostWindow, s)
  | indexSet :: rest, s, topmostWindow, lowestZOrder =>
    let s1 := { s with m_windowsByIndexSets := s.m_windowsByIndexSets.subscript indexSet [] }
    let assignedWindows := s1.m_windowsByIndexSets.value indexSet []
    if assignedWindows.isEmpty then (0, s1)
    else
      let (window, zOrder) := GetLowestZOrderWindow desktop assignedWindows
      if zOrder < lowestZOrder then topmostLoop desktop rest s1 window zOrder
      else topmostLoop desktop rest s1 topmostWindow lowestZOrder

/-- Method `LayoutAssignedWindows::GetTopmostWindowFromTargetZone`, with the object
after the call (the method is not `const`). -/
def GetTopmostWindowFromTargetZone (desktop : List HWND) (s : State)
    (targetZone : ZoneIndex) (currentWindowZones : ZoneIndexSet) : HWND × State :=
  let targetZoneIndexSets : List ZoneIndexSet :=
    (s.m_windowsByIndexSets.filter
      (fun entry => decide (entry.1 ≠ currentWindowZones) && decide (targetZone ∈ entry.1))).map
      Prod.fst
  if targetZoneIndexSets.isEmpty then (0, s)
  else topmostLoop desktop targetZoneIndexSets s 0 INT64_MAX

/-! ## Runs and predicates on states -/

/-- No entry of `m_windowsByIndexSets` holds an empty vector. -/
def NoEmptyGroups (s : State) : Prop :=
  ∀ entry ∈ s.m_windowsByIndexSets, entry.2 ≠ []

/-- The persisted sort key of `tab` is present and strictly greater than `key`. -/
def KeyGreater (s : State) (key : Nat) (tab : HWND) : Prop :=
  ∃ current, GetTabSortKeyWithinZone s tab = some current ∧ key < current

/-- The persisted sort key of `tab` is absent, or at most `key`. -/
def KeyNotGreater (s : State) (key : Nat) (tab : HWND) : Prop :=
  GetTabSortKeyWithinZone s tab = none ∨
    ∃ current, GetTabSortKeyWithinZone s tab = some current ∧ current ≤ key

/-- The sentence of claim C6 for one call: in the group after
`InsertWindowIntoZone(w, key, S)` every member of the old group whose key is
absent or at most `key` stands before `w`. -/
def AfterAllNotGreater (s : State) (w : HWND) (key : Nat) (S : ZoneIndexSet) : Prop :=
  ∀ t ∈ s.group S, KeyNotGreater s key t →
    ((InsertWindowIntoZone s w (some key) S).group S).indexOf t <
      ((InsertWindowIntoZone s w (some key) S).group S).indexOf w

/-- A group whose keys are not in increasing order: tab order `[10, 11]` under
zone combination `[0]`, window 10 with key 5 and window 11 with key 1. -/
def unsortedGroupState : State :=
  ⟨[(10, [0]), (11, [0])], [([0], [10, 11])],
    fun w => if w = 10 then some 5 else if w = 11 then some 1 else none⟩

/-- A group with keys in increasing order: tab order `[10, 11, 13]` under zone
combination `[0]`, with keys 1, 5 and 7. -/
def sortedGroupState : State :=
  ⟨[(10, [0]), (11, [0]), (13, [0])], [([0], [10, 11, 13])],
    fun w => if w = 10 then some 1 else if w = 11 then some 5
      else if w = 13 then some 7 else none⟩

/-- A group whose last member carries the largest `size_t` value as key. -/
def maxKeyState : State :=
  ⟨[(10, [0])], [([0], [10])], fun w => if w = 10 then some (2 ^ 64 - 1) else none⟩

/-- The sentence of claim C1 for one state: `m_windowIndexSet[w] = S` exactly
when `w` occurs exactly once in `m_windowsByIndexSets[S]`. -/
def IndexMatchesGroups (s : State) : Prop :=
  ∀ (w : HWND) (S : ZoneIndexSet),
    s.m_windowIndexSet.find w = some S ↔ (s.group S).count w = 1

/-- The object after `Assign(1, {})` and `Assign(1, {5})`. -/
def emptyZonesState : State :=
  Assign (Assign (State.empty (fun _ => none)) 1 []) 1 [5]

/-- The object after `Assign(1, {0})` and `Assign(2, {0})`. -/
def twoTabsState : State :=
  Assign (Assign (State.empty (fun _ => none)) 1 [0]) 2 [0]

/-- The calls `Assign(w1, S); ...; Assign(wn, S)` in this order. -/
def assignAll (s : State) (S : ZoneIndexSet) (ws : List HWND) : State :=
  ws.foldl (fun st w => Assign st w S) s

/-- The two maps agree with each other, up to what the group of the empty zone
combination holds: the registry is in key order and has no empty group, every
indexed window stands in the group of its non-empty zone combination, every
member of a group with a non-empty key is indexed under that key, and such a
group holds no window twice. -/
structure Consistent (s : State) : Prop where
  /-- The registry is in strictly increasing key order. -/
  sorted : StdMap.Sorted s.m_windowsByIndexSets
  /-- No group is empty. -/
  noEmpty : NoEmptyGroups s
  /-- An indexed window has a non-empty zone combination and is in its group. -/
  indexed : ∀ w S, s.m_windowIndexSet.find w = some S → S ≠ [] ∧ w ∈ s.group S
  /-- A member of a group with a non-empty key is indexed under that key. -/
  tracked : ∀ S, S ≠ [] → ∀ w ∈ s.group S, s.m_windowIndexSet.find w = some S
  /-- A group with a non-empty key has no repeated window. -/
  nodup : ∀ S, S ≠ [] → (s.group S).Nodup

/-- The window has no entry in `m_windowIndexSet`. -/
def Untracked (s : State) (window : HWND) : Prop :=
  s.m_windowIndexSet.find window = none

instance instDecidableUntracked (s : State) (window : HWND) : Decidable (Untracked s window) :=
  inferInstanceAs (Decidable (s.m_windowIndexSet.find window = none))


/-- One call of `Assign` or `Dismiss`. -/
inductive EditStep (s : State) : State → Prop
  | assign (window : HWND) (zones : ZoneIndexSet) : EditStep s (Assign s window zones)
  | dismiss (window : HWND) : EditStep s (Dismiss s window)

/-- States reached from a freshly constructed object by calls of `Assign` and
`Dismiss` only. -/
inductive EditReachable : State → Prop
  | init (tabSortKey : HWND → Option Nat) : EditReachable (State.empty tabSortKey)
  | step {s t : State} : EditReachable s → EditStep s t → EditReachable t

/-- One completed call of a public method that can touch the object. The
`const` queries `SnappedWindows`, `GetZoneIndexSetFromWindow` and `IsZoneEmpty`
return a value only and so take no step. -/
inductive PublicStep (s : State) : State → Prop
  | assign (window : HWND) (zones : ZoneIndexSet) : PublicStep s (Assign s window zones)
  | dismiss (window : HWND) : PublicStep s (Dismiss s window)
  | cycle (IsWindow IsWindowOnCurrentDesktop : HWND → Bool) (fuel : Nat) (window : HWND)
      (reverse : Bool) (r : CycleResult) :
      CycleWindows IsWindow IsWindowOnCurrentDesktop fuel s window reverse = some r →
      PublicStep s r.state
  | topmost (desktop : List HWND) (targetZone : ZoneIndex) (currentWindowZones : ZoneIndexSet) :
      PublicStep s (GetTopmostWindowFromTargetZone desktop s targetZone currentWindowZones).2

/-- States reached from a freshly constructed object by public calls. -/
inductive Reachable : State → Prop
  | init (tabSortKey : HWND → Option Nat) : Reachable (State.empty tabSortKey)
  | step {s t : State} : Reachable s → PublicStep s t → Reachable t

/-! ## Definitions for cycling, the topmost resolver and key order -/

/-- The window `GetNextZoneWindow` picks from a non-empty vector: the neighbour
of `current` in the given direction, wrapping around at the ends. -/
def nextInVector (assignedWindows : List HWND) (current : HWND) (reverse : Bool) : HWND :=
  if !reverse then
    if assignedWindows.indexOf current + 1 = assignedWindows.length then assignedWindows.headD 0
    else assignedWindows.getD (assignedWindows.indexOf current + 1) 0
  else
    if assignedWindows.indexOf current = 0 then assignedWindows.getLastD 0
    else assignedWindows.getD (assignedWindows.indexOf current - 1) 0

/-- The object after `Assign(1, {0})`, `Assign(2, {0})` and `Assign(3, {0})`:
the group of `[0]` is `[1, 2, 3]`. -/
def threeTabsState : State :=
  Assign (Assign (Assign (State.empty (fun _ => none)) 1 [0]) 2 [0]) 3 [0]

/-- The registry entry belongs to a zone combination other than
`currentWindowZones` that contains `targetZone`. -/
def Qualifies (targetZone : ZoneIndex) (currentWindowZones : ZoneIndexSet)
    (entry : ZoneIndexSet × List HWND) : Prop :=
  entry.1 ≠ currentWindowZones ∧ targetZone ∈ entry.1

instance instDecidableQualifies (targetZone : ZoneIndex) (currentWindowZones : ZoneIndexSet)
    (entry : ZoneIndexSet × List HWND) :
    Decidable (Qualifies targetZone currentWindowZones entry) :=
  inferInstanceAs (Decidable (entry.1 ≠ currentWindowZones ∧ targetZone ∈ entry.1))

/-- The object after `Assign(1, {0})`, `Assign(2, {1})` and `Assign(3, {0, 1})`:
the groups are `[0] = [1]`, `[0, 1] = [3]` and `[1] = [2]`. -/
def threeGroupsState : State :=
  Assign (Assign (Assign (State.empty (fun _ => none)) 1 [0]) 2 [1]) 3 [0, 1]

/-- One completed call of `Assign` with a non-empty zone sequence, of `Dismiss`
or of `CycleWindows`. -/
inductive NonEmptyStep (s : State) : State → Prop
  | assign (window : HWND) (zones : ZoneIndexSet) : zones ≠ [] →
      NonEmptyStep s (Assign s window zones)
  | dismiss (window : HWND) : NonEmptyStep s (Dismiss s window)
  | cycle (IsWindow IsWindowOnCurrentDesktop : HWND → Bool) (fuel : Nat) (window : HWND)
      (reverse : Bool) (r : CycleResult) :
      CycleWindows IsWindow IsWindowOnCurrentDesktop fuel s window reverse = some r →
      NonEmptyStep s r.state

/-- States reached from a freshly constructed object by `Assign`, `Dismiss` and
`CycleWindows` calls in which every `Assign` gets a non-empty zone sequence. -/
inductive NonEmptyReachable : State → Prop
  | init (tabSortKey : HWND → Option Nat) : NonEmptyReachable (State.empty tabSortKey)
  | step {s t : State} : NonEmptyReachable s → NonEmptyStep s t → NonEmptyReachable t

/-- Every member of the sequence has a persisted sort key and the keys do not
decrease along the sequence. -/
def KeysNonDecreasing (s : State) (g : List HWND) : Prop :=
  (∀ t ∈ g, ∃ k, GetTabSortKeyWithinZone s t = some k) ∧
  List.Pairwise (fun a b => ∀ ka kb, GetTabSortKeyWithinZone s a = some ka →
    GetTabSortKeyWithinZone s b = some kb → ka ≤ kb) g

/-- The members of a group in the order in which cycling from `anchor` meets
them: forward, the windows after the anchor, then those before it, then the
anchor; backward, the windows before the anchor from the nearest to the first,
then those after it from the last to the nearest, then the anchor. -/
def cycleCandidates (g : List HWND) (anchor : HWND) (reverse : Bool) : List HWND :=
  if reverse then (g.take (g.indexOf anchor)).reverse ++ (g.drop (g.indexOf anchor)).reverse
  else g.drop (g.indexOf anchor + 1) ++ g.take (g.indexOf anchor + 1)

/-- The object after `Assign(1, {0})` and `Assign(nullptr, {0})`: the group of
`[0]` is `[1, 0]`, its second member being the null handle. -/
def nullTabState : State :=
  Assign (Assign (State.empty (fun _ => none)) 1 [0]) 0 [0]

/-- What a test sees of a cycling result: the dismissed windows, the activated
window and the two maps. -/
def CycleResult.observe (r : CycleResult) :
    List HWND × Option HWND × StdMap HWND ZoneIndexSet × StdMap ZoneIndexSet (List HWND) :=
  (r.dismissed, r.activated, r.state.m_windowIndexSet, r.state.m_windowsByIndexSets)

/-! ## The key orders are strict total orders -/

theorem vectorLess_irrefl (a : List Nat) : vectorLess a a = false := by
  induction a with
  | nil => rfl
  | cons x xs ih => simp [vectorLess, ih]

theorem vectorLess_trans (a b c : List Nat) :
    vectorLess a b = true → vectorLess b c = true → vectorLess a c = true := by
  induction a generalizing b c with
  | nil =>
    cases b with
    | nil => intro h; simp [vectorLess] at h
    | cons y ys =>
      cases c with
      | nil => intro _ h; simp [vectorLess] at h
      | cons z zs => intro _ _; simp [vectorLess]
  | cons x xs ih =>
    cases b with
    | nil => intro h; simp [vectorLess] at h
    | cons y ys =>
      cases c with
      | nil => intro _ h; simp [vectorLess] at h
      | cons z zs =>
        intro h1 h2
        simp only [vectorLess] at h1 h2 ⊢
        by_cases hxy : x < y
        · by_cases hyz : y < z
          · have : x < z := by omega
            simp [this]
          · by_cases hzy : z < y
            · simp [hyz, hzy] at h2
            · have : x < z := by omega
              simp [this]
        · by_cases hyx : y < x
          · simp [hxy, hyx] at h1
          · simp only [hxy, hyx, if_false] at h1
            have hxy' : x = y := by omega
            subst hxy'
            by_cases hxz : x < z
            · simp [hxz]
            · by_cases hzx : z < x
              · simp [hxz, hzx] at h2
              · simp only [hxz, hzx, if_false] at h2 ⊢
                exact ih ys zs h1 h2

theorem vectorLess_total (a b : List Nat) :
    vectorLess a b = false → a ≠ b → vectorLess b a = true := by
  induction a generalizing b with
  | nil =>
    cases b with
    | nil => intro _ h; exact absurd rfl h
    | cons y ys => intro h; simp [vectorLess] at h
  | cons x xs ih =>
    cases b with
    | nil => intro _ _; simp [vectorLess]
    | cons y ys =>
      intro h hne
      simp only [vectorLess] at h ⊢
      by_cases hxy : x < y
      · simp [hxy] at h
      · by_cases hyx : y < x
        · simp [hyx]
        · simp only [hxy, hyx, if_false] at h ⊢
          have hxy' : x = y := by omega
          subst hxy'
          exact ih ys h (fun e => hne (by rw [e]))

instance instLawfulKeyOrderHWND : LawfulKeyOrder HWND where
  lt_irrefl a := by
    show decide (a < a) = false
    simp
  lt_trans a b c := by
    show decide (a < b) = true → decide (b < c) = true → decide (a < c) = true
    simp only [decide_eq_true_eq]
    exact fun h1 h2 => Nat.lt_trans h1 h2
  lt_total a b := by
    show decide (a < b) = false → a ≠ b → decide (b < a) = true
    simp only [decide_eq_false_iff_not, decide_eq_true_eq]
    exact fun h1 h2 => Nat.lt_of_le_of_ne (Nat.le_of_not_lt h1) (Ne.symm h2)

instance instLawfulKeyOrderZoneIndexSet : LawfulKeyOrder ZoneIndexSet where
  lt_irrefl := vectorLess_irrefl
  lt_trans := vectorLess_trans
  lt_total := vectorLess_total

/-! ## Lookup, assignment and removal in a map -/

namespace StdMap

variable {K V : Type} [DecidableEq K]

theorem find_assign [KeyOrder K] (m : StdMap K V) (k k' : K) (v : V) :
    find (assign k v m) k' = if k = k' then some v else find m k' := by
  induction m with
  | nil => simp [assign, find]
  | cons p rest ih =>
    obtain ⟨k0, v0⟩ := p
    simp only [assign]
    by_cases h1 : KeyOrder.lt k k0 = true
    · simp [h1, find]
    · by_cases h2 : k = k0
      · subst h2
        simp only [h1, if_false, if_true, find]
        by_cases h3 : k = k' <;> simp [h3]
      · simp only [h1, h2, if_false, find, ih]
        by_cases h3 : k0 = k'
        · subst h3
          simp [h2]
        · simp [h3]

theorem find_erase (m : StdMap K V) (k k' : K) :
    find (erase k m) k' = if k = k' then none else find m k' := by
  induction m with
  | nil => simp [erase, find]
  | cons p rest ih =>
    obtain ⟨k0, v0⟩ := p
    unfold erase at ih ⊢
    by_cases h1 : k0 = k
    · subst h1
      simp only [List.filter, decide_True, Bool.not_true, ih, find]
      by_cases h2 : k0 = k'
      · simp [h2]
      · simp [h2]
    · simp only [List.filter, h1, decide_False, Bool.not_false, find, ih]
      by_cases h2 : k0 = k'
      · subst h2
        simp [Ne.symm h1]
      · simp [h2]

theorem erase_eq_self (m : StdMap K V) (k : K) (h : find m k = none) : erase k m = m := by
  induction m with
  | nil => rfl
  | cons p rest ih =>
    obtain ⟨k0, v0⟩ := p
    unfold erase at ih ⊢
    by_cases h1 : k0 = k
    · simp [find, h1] at h
    · simp only [find, h1, if_false] at h
      simp [List.filter, h1, ih h]

theorem erase_assign [KeyOrder K] (m : StdMap K V) (k : K) (v : V) (h : find m k = none) :
    erase k (assign k v m) = m := by
  induction m with
  | nil => simp [assign, erase]
  | cons p rest ih =>
    obtain ⟨k0, v0⟩ := p
    have h1 : ¬ k0 = k := by
      intro e
      simp [find, e] at h
    have h1' : ¬ k = k0 := fun e => h1 e.symm
    have h2 : find rest k = none := by
      simpa [find, h1] using h
    simp only [assign, h1', if_false]
    by_cases h3 : KeyOrder.lt k k0 = true
    · simp only [h3, if_true]
      have := erase_eq_self ((k0, v0) :: rest) k h
      unfold erase at this ⊢
      rw [List.filter_cons_of_neg (by simp)]
      exact this
    · simp only [h3, if_false]
      have := ih h2
      unfold erase at this ⊢
      simp [List.filter, h1, this]

theorem assign_assign [KeyOrder K] [LawfulKeyOrder K] (m : StdMap K V) (k : K) (v v' : V) :
    assign k v (assign k v' m) = assign k v m := by
  induction m with
  | nil => simp [assign, LawfulKeyOrder.lt_irrefl]
  | cons p rest ih =>
    obtain ⟨k0, v0⟩ := p
    simp only [assign]
    by_cases h1 : KeyOrder.lt k k0 = true
    · simp [h1, assign, LawfulKeyOrder.lt_irrefl]
    · by_cases h2 : k = k0
      · subst h2
        simp [h1, assign]
      · simp [h1, h2, assign, ih]

theorem assign_eq_self [KeyOrder K] [LawfulKeyOrder K] (m : StdMap K V) (k : K) (v : V)
    (hs : Sorted m) (h : find m k = some v) : assign k v m = m := by
  induction m with
  | nil => simp [find] at h
  | cons p rest ih =>
    obtain ⟨k0, v0⟩ := p
    by_cases h1 : k0 = k
    · subst h1
      simp only [find, if_true, Option.some.injEq] at h
      subst h
      simp [assign, LawfulKeyOrder.lt_irrefl]
    · simp only [find, h1, if_false] at h
      have hs' := List.pairwise_cons.mp hs
      have hmem : ∃ v1, (k, v1) ∈ rest := by
        clear ih hs hs'
        induction rest with
        | nil => simp [find] at h
        | cons q rest' ih' =>
          obtain ⟨k1, v1⟩ := q
          by_cases h4 : k1 = k
          · exact ⟨v1, by simp [h4]⟩
          · simp only [find, h4, if_false] at h
            obtain ⟨v2, hv2⟩ := ih' h
            exact ⟨v2, List.mem_cons_of_mem _ hv2⟩
      obtain ⟨v1, hv1⟩ := hmem
      have hlt : KeyOrder.lt k0 k = true := hs'.1 (k, v1) hv1
      have hnlt : ¬ KeyOrder.lt k k0 = true := by
        intro hc
        have := LawfulKeyOrder.lt_trans k k0 k hc hlt
        simp [LawfulKeyOrder.lt_irrefl] at this
      have h1' : ¬ k = k0 := fun e => h1 e.symm
      simp [assign, hnlt, h1', ih hs'.2 h]

theorem sorted_erase [KeyOrder K] (m : StdMap K V) (k : K) (hs : Sorted m) :
    Sorted (erase k m) :=
  List.Pairwise.sublist (List.filter_sublist m) hs

theorem mem_assign [KeyOrder K] (m : StdMap K V) (k : K) (v : V) (q : K × V) :
    q ∈ assign k v m → q = (k, v) ∨ q ∈ m := by
  induction m with
  | nil => intro hq; simpa [assign] using hq
  | cons p rest ih =>
    obtain ⟨k0, v0⟩ := p
    intro hq
    simp only [assign] at hq
    by_cases h1 : KeyOrder.lt k k0 = true
    · simp only [h1, if_true, List.mem_cons] at hq
      rcases hq with hq | hq | hq
      · exact Or.inl hq
      · exact Or.inr (by simp [hq])
      · exact Or.inr (by simp [hq])
    · by_cases h2 : k = k0
      · subst h2
        simp only [h1, Bool.false_eq_true, if_false, eq_self_iff_true, if_true,
          List.mem_cons] at hq
        rcases hq with hq | hq
        · exact Or.inl hq
        · exact Or.inr (by simp [hq])
      · simp only [h1, h2, Bool.false_eq_true, if_false, List.mem_cons] at hq
        rcases hq with hq | hq
        · exact Or.inr (by simp [hq])
        · rcases ih hq with h | h
          · exact Or.inl h
          · exact Or.inr (by simp [h])

theorem sorted_assign [KeyOrder K] [LawfulKeyOrder K] (m : StdMap K V) (k : K) (v : V)
    (hs : Sorted m) : Sorted (assign k v m) := by
  induction m with
  | nil => simp [assign, Sorted]
  | cons p rest ih =>
    obtain ⟨k0, v0⟩ := p
    have hs' := List.pairwise_cons.mp hs
    simp only [assign]
    by_cases h1 : KeyOrder.lt k k0 = true
    · simp only [h1, if_true]
      refine List.pairwise_cons.mpr ⟨?_, hs⟩
      intro q hq
      rcases List.mem_cons.mp hq with hq | hq
      · rw [hq]; exact h1
      · exact LawfulKeyOrder.lt_trans k k0 q.1 h1 (hs'.1 q hq)
    · by_cases h2 : k = k0
      · subst h2
        simp only [h1, if_false, if_true]
        exact List.pairwise_cons.mpr ⟨hs'.1, hs'.2⟩
      · simp only [h1, h2, if_false]
        refine List.pairwise_cons.mpr ⟨?_, ih hs'.2⟩
        intro q hq
        rcases mem_assign rest k v q hq with hq | hq
        · rw [hq]
          exact LawfulKeyOrder.lt_total k k0 (by simpa using h1) h2
        · exact hs'.1 q hq

theorem subscript_of_contains [KeyOrder K] (m : StdMap K V) (k : K) (dflt : V)
    (h : contains m k = true) : subscript m k dflt = m := by
  simp [subscript, h]

end StdMap

/-! ## Effect of each operation on the three components of the state -/

theorem value_eq_of_find {K V : Type} [DecidableEq K] (m : StdMap K V) (k : K) (dflt v : V)
    (h : m.find k = some v) : m.value k dflt = v := by
  simp [StdMap.value, h]

theorem value_eq_of_find_none {K V : Type} [DecidableEq K] (m : StdMap K V) (k : K) (dflt : V)
    (h : m.find k = none) : m.value k dflt = dflt := by
  simp [StdMap.value, h]

theorem Dismiss_index (s : State) (w : HWND) :
    (Dismiss s w).m_windowIndexSet = s.m_windowIndexSet.erase w := by
  unfold Dismiss
  cases h : s.m_windowIndexSet.find w with
  | none => simp [SetTabSortKeyWithinZone, StdMap.erase_eq_self _ _ h]
  | some S => simp [SetTabSortKeyWithinZone]

theorem Dismiss_tabSortKey (s : State) (w x : HWND) :
    (Dismiss s w).tabSortKey x = if x = w then none else s.tabSortKey x := by
  unfold Dismiss
  cases h : s.m_windowIndexSet.find w <;> simp [SetTabSortKeyWithinZone]

theorem Dismiss_registry_of_untracked (s : State) (w : HWND)
    (h : s.m_windowIndexSet.find w = none) :
    (Dismiss s w).m_windowsByIndexSets = s.m_windowsByIndexSets := by
  unfold Dismiss
  simp [h, SetTabSortKeyWithinZone]

theorem Dismiss_registry_of_tracked (s : State) (w : HWND) (S : ZoneIndexSet)
    (h : s.m_windowIndexSet.find w = some S) :
    (Dismiss s w).m_windowsByIndexSets =
      if ((s.group S).erase w).isEmpty
      then (s.m_windowsByIndexSets.assign S ((s.group S).erase w)).erase S
      else s.m_windowsByIndexSets.assign S ((s.group S).erase w) := by
  unfold Dismiss
  simp [h, SetTabSortKeyWithinZone, State.group]

theorem Dismiss_find_index (s : State) (w x : HWND) :
    (Dismiss s w).m_windowIndexSet.find x =
      if w = x then none else s.m_windowIndexSet.find x := by
  rw [Dismiss_index, StdMap.find_erase]

theorem foldl_pushIndex_registry (w : HWND) (zones : ZoneIndexSet) (s : State) :
    (zones.foldl (pushIndex w) s).m_windowsByIndexSets = s.m_windowsByIndexSets := by
  induction zones generalizing s with
  | nil => rfl
  | cons z zs ih => simp [List.foldl, ih, pushIndex]

theorem foldl_pushIndex_tabSortKey (w : HWND) (zones : ZoneIndexSet) (s : State) :
    (zones.foldl (pushIndex w) s).tabSortKey = s.tabSortKey := by
  induction zones generalizing s with
  | nil => rfl
  | cons z zs ih => simp [List.foldl, ih, pushIndex]

theorem foldl_pushIndex_index (w : HWND) (zones : ZoneIndexSet) (s : State) :
    (zones.foldl (pushIndex w) s).m_windowIndexSet =
      if zones = [] then s.m_windowIndexSet
      else s.m_windowIndexSet.assign w (s.m_windowIndexSet.value w [] ++ zones) := by
  induction zones generalizing s with
  | nil => rfl
  | cons z zs ih =>
    simp only [List.foldl, ih, reduceCtorEq, if_false]
    have hv : (pushIndex w s z).m_windowIndexSet.value w [] =
        s.m_windowIndexSet.value w [] ++ [z] := by
      simp [pushIndex, StdMap.value, StdMap.find_assign]
    by_cases hzs : zs = []
    · subst hzs
      simp [pushIndex]
    · simp only [hzs, if_false, hv]
      simp [pushIndex, StdMap.assign_assign]

theorem InsertWindowIntoZone_index (s : State) (w : HWND) (key : Option Nat)
    (S : ZoneIndexSet) :
    (InsertWindowIntoZone s w key S).m_windowIndexSet = s.m_windowIndexSet := by
  cases key <;> simp [InsertWindowIntoZone, SetTabSortKeyWithinZone]

theorem InsertWindowIntoZone_tabSortKey_of_ne (s : State) (w x : HWND) (key : Option Nat)
    (S : ZoneIndexSet) (hx : x ≠ w) :
    (InsertWindowIntoZone s w key S).tabSortKey x = s.tabSortKey x := by
  cases key <;> simp [InsertWindowIntoZone, SetTabSortKeyWithinZone, hx]

theorem Assign_index (s : State) (w : HWND) (zones : ZoneIndexSet) :
    (Assign s w zones).m_windowIndexSet =
      if zones = [] then s.m_windowIndexSet.erase w
      else (s.m_windowIndexSet.erase w).assign w zones := by
  unfold Assign
  simp only [InsertWindowIntoZone_index, foldl_pushIndex_index, Dismiss_index]
  have : (s.m_windowIndexSet.erase w).value w [] = [] := by
    simp [StdMap.value, StdMap.find_erase]
  simp [this]

theorem Assign_key_read (s : State) (w : HWND) (zones : ZoneIndexSet) :
    GetTabSortKeyWithinZone (zones.foldl (pushIndex w) (Dismiss s w)) w = none := by
  simp [GetTabSortKeyWithinZone, foldl_pushIndex_tabSortKey, Dismiss_tabSortKey]

theorem InsertWindowIntoZone_registry_some (s : State) (w : HWND) (key : Nat)
    (S : ZoneIndexSet) :
    (InsertWindowIntoZone s w (some key) S).m_windowsByIndexSets =
      s.m_windowsByIndexSets.assign S
        ((s.group S).insertIdx ((s.group S).findIdx (predicate s key)) w) := by
  simp [InsertWindowIntoZone, SetTabSortKeyWithinZone, State.group]

theorem InsertWindowIntoZone_registry_none (s : State) (w : HWND) (S : ZoneIndexSet) :
    (InsertWindowIntoZone s w none S).m_windowsByIndexSets =
      s.m_windowsByIndexSets.assign S (s.group S ++ [w]) := by
  simp [InsertWindowIntoZone, SetTabSortKeyWithinZone, State.group]

theorem InsertWindowIntoZone_registry (s : State) (w : HWND) (key : Option Nat)
    (S : ZoneIndexSet) :
    ∃ g, g ≠ [] ∧ (InsertWindowIntoZone s w key S).m_windowsByIndexSets =
      s.m_windowsByIndexSets.assign S g := by
  cases key with
  | none =>
    exact ⟨s.group S ++ [w], by simp, InsertWindowIntoZone_registry_none s w S⟩
  | some k =>
    refine ⟨_, ?_, InsertWindowIntoZone_registry_some s w k S⟩
    intro h
    have := @List.length_insertIdx _ w _ (s.group S)
      (List.findIdx_le_length (predicate s k))
    rw [h] at this
    simp at this

theorem Assign_registry (s : State) (w : HWND) (zones : ZoneIndexSet) :
    (Assign s w zones).m_windowsByIndexSets =
      (Dismiss s w).m_windowsByIndexSets.assign zones ((Dismiss s w).group zones ++ [w]) := by
  unfold Assign
  simp only [Assign_key_read, InsertWindowIntoZone_registry_none, State.group,
    foldl_pushIndex_registry]

/-! ## No empty groups -/

theorem NoEmptyGroups_assign (s t : State) (S : ZoneIndexSet) (g : List HWND) (hg : g ≠ [])
    (h : NoEmptyGroups s)
    (ht : t.m_windowsByIndexSets = s.m_windowsByIndexSets.assign S g) : NoEmptyGroups t := by
  intro entry he
  rw [ht] at he
  rcases StdMap.mem_assign _ _ _ _ he with e | e
  · rw [e]; exact hg
  · exact h entry e

theorem NoEmptyGroups_Dismiss (s : State) (w : HWND) (h : NoEmptyGroups s) :
    NoEmptyGroups (Dismiss s w) := by
  cases hf : s.m_windowIndexSet.find w with
  | none =>
    intro entry he
    rw [Dismiss_registry_of_untracked s w hf] at he
    exact h entry he
  | some S =>
    intro entry he
    rw [Dismiss_registry_of_tracked s w S hf] at he
    by_cases hempty : ((s.group S).erase w).isEmpty = true
    · simp only [hempty, if_true, StdMap.erase, List.mem_filter] at he
      rcases StdMap.mem_assign _ _ _ _ he.1 with e | e
      · have := he.2
        simp [e] at this
      · exact h entry e
    · simp only [hempty, Bool.false_eq_true, if_false] at he
      rcases StdMap.mem_assign _ _ _ _ he with e | e
      · rw [e]
        intro hnil
        have hnil' : (s.group S).erase w = [] := hnil
        exact hempty (by rw [hnil']; rfl)
      · exact h entry e

theorem NoEmptyGroups_InsertWindowIntoZone (s : State) (w : HWND) (key : Option Nat)
    (S : ZoneIndexSet) (h : NoEmptyGroups s) :
    NoEmptyGroups (InsertWindowIntoZone s w key S) := by
  obtain ⟨g, hg, hreg⟩ := InsertWindowIntoZone_registry s w key S
  exact NoEmptyGroups_assign s _ S g hg h hreg

theorem NoEmptyGroups_Assign (s : State) (w : HWND) (zones : ZoneIndexSet)
    (h : NoEmptyGroups s) : NoEmptyGroups (Assign s w zones) := by
  unfold Assign
  apply NoEmptyGroups_InsertWindowIntoZone
  intro entry he
  rw [foldl_pushIndex_registry] at he
  exact NoEmptyGroups_Dismiss s w h entry he

theorem GetNextZoneWindow_state (s : State) (S : ZoneIndexSet) (current : HWND)
    (reverse : Bool) : (GetNextZoneWindow s S current reverse).2 = s := by
  unfold GetNextZoneWindow
  by_cases hc : s.m_windowsByIndexSets.contains S = true
  · have hs : ({ s with m_windowsByIndexSets := s.m_windowsByIndexSets.subscript S [] } : State)
        = s := by
      rw [StdMap.subscript_of_contains _ _ _ hc]
    simp only [hc, Bool.not_true, Bool.false_eq_true, if_false, hs]
    split <;> [rfl; (split <;> rfl)]
  · simp [hc]

theorem CycleWindowsLoop_preserves (P : State → Prop)
    (hP : ∀ (s : State) (w : HWND), P s → P (Dismiss s w))
    (IsWindow IsWindowOnCurrentDesktop : HWND → Bool)
    (S : ZoneIndexSet) (w : HWND) (reverse : Bool) (fuel : Nat) :
    ∀ (s : State) (dismissed : List HWND) (r : CycleResult), P s →
      CycleWindowsLoop IsWindow IsWindowOnCurrentDesktop S w reverse fuel s dismissed = some r →
      P r.state := by
  induction fuel with
  | zero => intro s d r _ hr; simp [CycleWindowsLoop] at hr
  | succ n ih =>
    intro s d r hs hr
    unfold CycleWindowsLoop at hr
    have hst := GetNextZoneWindow_state s S w reverse
    revert hr
    cases hnext : GetNextZoneWindow s S w reverse with
    | mk next s1 =>
      rw [hnext] at hst
      simp only at hst
      subst hst
      simp only
      intro hr
      by_cases h0 : next = 0
      · simp only [h0, if_true, Option.some.injEq] at hr
        rw [← hr]; exact hs
      · by_cases hlive : IsWindow next = true
        · by_cases hdesk : IsWindowOnCurrentDesktop next = true
          · simp only [h0, hlive, hdesk, if_false, if_true, Bool.not_true, Bool.false_eq_true,
              Option.some.injEq] at hr
            rw [← hr]; exact hs
          · simp only [h0, hlive, hdesk, if_false, Bool.not_true, Bool.false_eq_true,
              Option.some.injEq] at hr
            rw [← hr]; exact hs
        · simp only [h0, hlive, if_false, Bool.not_false, if_true] at hr
          exact ih _ _ r (hP _ next hs) hr

theorem CycleWindows_preserves (P : State → Prop)
    (hP : ∀ (s : State) (w : HWND), P s → P (Dismiss s w))
    (IsWindow IsWindowOnCurrentDesktop : HWND → Bool) (fuel : Nat) (s : State) (w : HWND)
    (reverse : Bool) (r : CycleResult) (hs : P s)
    (hr : CycleWindows IsWindow IsWindowOnCurrentDesktop fuel s w reverse = some r) :
    P r.state := by
  unfold CycleWindows at hr
  simp only at hr
  split at hr
  · simp only [Option.some.injEq] at hr
    rw [← hr]; exact hs
  · exact CycleWindowsLoop_preserves P hP IsWindow IsWindowOnCurrentDesktop _ w reverse fuel
      _ _ r hs hr

theorem StdMap.contains_of_mem {K V : Type} [DecidableEq K] (m : StdMap K V) (k : K) (v : V)
    (h : (k, v) ∈ m) : m.contains k = true := by
  induction m with
  | nil => simp at h
  | cons p rest ih =>
    obtain ⟨k0, v0⟩ := p
    by_cases hk : k0 = k
    · simp [StdMap.contains, StdMap.find, hk]
    · have : (k, v) ∈ rest := by
        rcases List.mem_cons.mp h with e | e
        · exact absurd (by simpa using (congrArg Prod.fst e).symm) hk
        · exact e
      have := ih this
      simpa [StdMap.contains, StdMap.find, hk] using this

theorem topmostLoop_state (desktop : List HWND) (keys : List ZoneIndexSet) :
    ∀ (s : State) (topmostWindow : HWND) (lowestZOrder : Int),
      (∀ k ∈ keys, s.m_windowsByIndexSets.contains k = true) →
      (topmostLoop desktop keys s topmostWindow lowestZOrder).2 = s := by
  induction keys with
  | nil => intro s t l _; rfl
  | cons k rest ih =>
    intro s t l hk
    have hc := hk k (by simp)
    have hs : ({ s with m_windowsByIndexSets := s.m_windowsByIndexSets.subscript k [] } : State)
        = s := by
      rw [StdMap.subscript_of_contains _ _ _ hc]
    have hrest : ∀ k' ∈ rest, s.m_windowsByIndexSets.contains k' = true :=
      fun k' hk' => hk k' (by simp [hk'])
    unfold topmostLoop
    simp only [hs]
    split
    · rfl
    · split <;> exact ih _ _ _ hrest

theorem GetTopmostWindowFromTargetZone_state (desktop : List HWND) (s : State)
    (targetZone : ZoneIndex) (currentWindowZones : ZoneIndexSet) :
    (GetTopmostWindowFromTargetZone desktop s targetZone currentWindowZones).2 = s := by
  unfold GetTopmostWindowFromTargetZone
  simp only
  split
  · rfl
  · apply topmostLoop_state
    intro k hk
    obtain ⟨entry, he, hke⟩ := List.mem_map.mp hk
    have := (List.mem_filter.mp he).1
    obtain ⟨k0, v0⟩ := entry
    simp only at hke
    subst hke
    exact StdMap.contains_of_mem _ _ _ this

/-- Claim C2. After every finite run of public operations from a freshly
constructed object (calls of `Assign`, `Dismiss`, `CycleWindows` under any
liveness and desktop answers, and the queries), no entry of
`m_windowsByIndexSets` holds an empty window sequence. -/
theorem no_empty_groups (s : State) (h : Reachable s) : NoEmptyGroups s := by
  induction h with
  | init keys => intro entry he; simp [State.empty] at he
  | step _ hstep ih =>
    cases hstep with
    | assign w zones => exact NoEmptyGroups_Assign _ w zones ih
    | dismiss w => exact NoEmptyGroups_Dismiss _ w ih
    | cycle live desk fuel w reverse r hr =>
      exact CycleWindows_preserves NoEmptyGroups NoEmptyGroups_Dismiss live desk fuel _ w
        reverse r ih hr
    | topmost desktop targetZone current =>
      rw [GetTopmostWindowFromTargetZone_state]; exact ih

theorem no_empty_groups_witness :
    Reachable (Dismiss (Assign (Assign (State.empty (fun _ => none)) 1 [0, 1]) 2 [0, 1]) 1) ∧
    NoEmptyGroups
      (Dismiss (Assign (Assign (State.empty (fun _ => none)) 1 [0, 1]) 2 [0, 1]) 1) :=
  have hr : Reachable
      (Dismiss (Assign (Assign (State.empty (fun _ => none)) 1 [0, 1]) 2 [0, 1]) 1) :=
    Reachable.step
      (Reachable.step (Reachable.step (Reachable.init _) (PublicStep.assign 1 [0, 1]))
        (PublicStep.assign 2 [0, 1]))
      (PublicStep.dismiss 1)
  ⟨hr, no_empty_groups _ hr⟩

/-! ## Lookup after `Assign` -/

/-- Claim C3. In every state, after `Assign(w, zones)` the query
`GetZoneIndexSetFromWindow(w)` returns exactly `zones` (same elements, same
order, repetitions kept, whatever `w` was assigned to before), and the answer
of `GetZoneIndexSetFromWindow` for every other window is unchanged. -/
theorem Assign_lookup (s : State) (w : HWND) (zones : ZoneIndexSet) :
    GetZoneIndexSetFromWindow (Assign s w zones) w = zones ∧
    ∀ w', w' ≠ w →
      GetZoneIndexSetFromWindow (Assign s w zones) w' = GetZoneIndexSetFromWindow s w' := by
  constructor
  · unfold GetZoneIndexSetFromWindow
    rw [Assign_index]
    by_cases hz : zones = []
    · simp [hz, StdMap.find_erase]
    · simp [hz, StdMap.find_assign]
  · intro w' hw'
    unfold GetZoneIndexSetFromWindow
    rw [Assign_index]
    have hne : ¬ w = w' := fun e => hw' e.symm
    by_cases hz : zones = []
    · simp [hz, StdMap.find_erase, hne]
    · simp [hz, StdMap.find_assign, StdMap.find_erase, hne]

theorem Assign_lookup_witness :
    GetZoneIndexSetFromWindow
        (Assign (Assign (Assign (State.empty (fun _ => none)) 7 [1, 2]) 8 [3]) 7 [2, 2, 1]) 7
      = [2, 2, 1] ∧
    GetZoneIndexSetFromWindow
        (Assign (Assign (Assign (State.empty (fun _ => none)) 7 [1, 2]) 8 [3]) 7 [2, 2, 1]) 8
      = GetZoneIndexSetFromWindow
        (Assign (Assign (State.empty (fun _ => none)) 7 [1, 2]) 8 [3]) 8 :=
  ⟨(Assign_lookup _ 7 [2, 2, 1]).1, (Assign_lookup _ 7 [2, 2, 1]).2 8 (by decide)⟩

/-! ## Dismissal of an untracked window -/

theorem Dismiss_of_untracked (s : State) (w : HWND) (h : Untracked s w) :
    Dismiss s w = SetTabSortKeyWithinZone s w none := by
  unfold Untracked at h
  unfold Dismiss
  simp [h]

theorem Untracked_Dismiss (s : State) (w : HWND) : Untracked (Dismiss s w) w := by
  unfold Untracked
  rw [Dismiss_find_index]
  simp

theorem SetTabSortKeyWithinZone_again (s : State) (w : HWND) (key : Option Nat)
    (h : s.tabSortKey w = key) : SetTabSortKeyWithinZone s w key = s := by
  obtain ⟨idx, reg, keys⟩ := s
  simp only [SetTabSortKeyWithinZone, State.mk.injEq, true_and]
  funext x
  by_cases hx : x = w
  · simp only [hx, if_true]
    exact h.symm
  · simp [hx]

/-- Claim C10. In every state, `Dismiss(w)` of a window without an entry in
`m_windowIndexSet` leaves `m_windowIndexSet` and `m_windowsByIndexSets` as they
are and makes the persisted sort key of `w` absent; and for every state and
window a second `Dismiss(w)` changes nothing after the first. -/
theorem Dismiss_idempotent (s : State) (w : HWND) :
    (Untracked s w →
      (Dismiss s w).m_windowIndexSet = s.m_windowIndexSet ∧
      (Dismiss s w).m_windowsByIndexSets = s.m_windowsByIndexSets ∧
      GetTabSortKeyWithinZone (Dismiss s w) w = none) ∧
    Dismiss (Dismiss s w) w = Dismiss s w := by
  constructor
  · intro h
    refine ⟨?_, Dismiss_registry_of_untracked s w h, ?_⟩
    · rw [Dismiss_index]
      exact StdMap.erase_eq_self _ _ h
    · simp [GetTabSortKeyWithinZone, Dismiss_tabSortKey]
  · rw [Dismiss_of_untracked _ w (Untracked_Dismiss s w)]
    apply SetTabSortKeyWithinZone_again
    simp [Dismiss_tabSortKey]

theorem Dismiss_idempotent_witness :
    Untracked (Assign (State.empty (fun _ => some 4)) 1 [0]) 2 ∧
    (Dismiss (Assign (State.empty (fun _ => some 4)) 1 [0]) 2).m_windowIndexSet
      = (Assign (State.empty (fun _ => some 4)) 1 [0]).m_windowIndexSet ∧
    (Dismiss (Assign (State.empty (fun _ => some 4)) 1 [0]) 2).m_windowsByIndexSets
      = (Assign (State.empty (fun _ => some 4)) 1 [0]).m_windowsByIndexSets ∧
    GetTabSortKeyWithinZone (Dismiss (Assign (State.empty (fun _ => some 4)) 1 [0]) 2) 2
      = none :=
  ⟨by decide, (Dismiss_idempotent _ 2).1 (by decide)⟩

/-! ## Ordered insertion -/

theorem insertIdx_findIdx (p : HWND → Bool) (w : HWND) (g : List HWND) :
    g.insertIdx (g.findIdx p) w =
      g.takeWhile (fun t => !p t) ++ w :: g.dropWhile (fun t => !p t) := by
  induction g with
  | nil => simp
  | cons a l ih =>
    rw [List.findIdx_cons]
    by_cases hp : p a = true
    · simp [hp, List.takeWhile_cons, List.dropWhile_cons]
    · have hp' : p a = false := by simpa using hp
      simp [hp', List.takeWhile_cons, List.dropWhile_cons, List.insertIdx_succ_cons, ih]

theorem predicate_iff (s : State) (key : Nat) (tab : HWND) :
    predicate s key tab = true ↔ KeyGreater s key tab := by
  unfold predicate KeyGreater
  cases h : GetTabSortKeyWithinZone s tab with
  | none => simp
  | some c => simp

theorem not_KeyGreater_iff (s : State) (key : Nat) (tab : HWND) :
    ¬ KeyGreater s key tab ↔ KeyNotGreater s key tab := by
  unfold KeyGreater KeyNotGreater
  cases h : GetTabSortKeyWithinZone s tab with
  | none => simp
  | some c => simp

theorem group_assign (s t : State) (S : ZoneIndexSet) (g : List HWND)
    (h : t.m_windowsByIndexSets = s.m_windowsByIndexSets.assign S g) : t.group S = g := by
  simp [State.group, StdMap.value, h, StdMap.find_assign]

theorem group_assign_of_ne (s t : State) (S S' : ZoneIndexSet) (g : List HWND)
    (h : t.m_windowsByIndexSets = s.m_windowsByIndexSets.assign S g) (hne : S ≠ S') :
    t.group S' = s.group S' := by
  simp [State.group, StdMap.value, h, StdMap.find_assign, hne]

theorem InsertWindowIntoZone_group_some (s : State) (w : HWND) (key : Nat) (S : ZoneIndexSet) :
    (InsertWindowIntoZone s w (some key) S).group S =
      (s.group S).takeWhile (fun t => !predicate s key t) ++
        w :: (s.group S).dropWhile (fun t => !predicate s key t) := by
  rw [group_assign s _ S _ (InsertWindowIntoZone_registry_some s w key S), insertIdx_findIdx]

theorem InsertWindowIntoZone_split (s : State) (w : HWND) (k : Nat) (S : ZoneIndexSet) :
    ∃ before after,
      s.group S = before ++ after ∧
      (InsertWindowIntoZone s w (some k) S).group S = before ++ w :: after ∧
      (∀ t ∈ before, predicate s k t = false) ∧
      (∀ t, after.head? = some t → predicate s k t = true) := by
  refine ⟨(s.group S).takeWhile (fun t => !predicate s k t),
    (s.group S).dropWhile (fun t => !predicate s k t),
    (List.takeWhile_append_dropWhile _ _).symm, InsertWindowIntoZone_group_some s w k S, ?_, ?_⟩
  · intro t ht
    have h1 := List.mem_takeWhile_imp ht
    simpa using h1
  · intro t ht
    have h1 := List.head?_dropWhile_not (fun t => !predicate s k t) (s.group S)
    rw [ht] at h1
    simpa using h1

/-- Claim C5. For every group sequence and every present key `k`,
`InsertWindowIntoZone(w, k, S)` splits the old sequence in two parts and puts
`w` between them: no member of the first part has a present key greater than
`k` (members without a key never stop the scan), and the second part is empty
(then `w` is last) or starts with a member whose key is present and strictly
greater than `k`. The other members keep their relative order. -/
theorem InsertWindowIntoZone_position (s : State) (w : HWND) (k : Nat) (S : ZoneIndexSet) :
    ∃ before after,
      s.group S = before ++ after ∧
      (InsertWindowIntoZone s w (some k) S).group S = before ++ w :: after ∧
      (∀ t ∈ before, ¬ KeyGreater s k t) ∧
      (∀ t, after.head? = some t → KeyGreater s k t) := by
  obtain ⟨before, after, hg, hnew, hbefore, hhead⟩ := InsertWindowIntoZone_split s w k S
  refine ⟨before, after, hg, hnew, ?_, ?_⟩
  · intro t ht hgt
    have h1 := hbefore t ht
    rw [(predicate_iff s k t).mpr hgt] at h1
    exact Bool.noConfusion h1
  · intro t ht
    exact (predicate_iff s k t).mp (hhead t ht)

/-- Counterexample to claim C6 as stated. In the group `[10, 11]` with keys 5
and 1, inserting window 12 with key 3 gives `[12, 10, 11]`: window 11 has a
key below 3 and yet stands after the inserted window. -/
theorem InsertWindowIntoZone_not_after_all :
    ¬ AfterAllNotGreater unsortedGroupState 12 3 [0] := by
  intro h
  have h11 : KeyNotGreater unsortedGroupState 3 11 := Or.inr ⟨1, by decide, by decide⟩
  have := h 11 (by decide) h11
  revert this
  decide

/-- Claim C6, amended. When no member whose key is absent or at most `k` comes
after a member whose key is greater than `k` (as in a group with keys in
non-decreasing tab order), `InsertWindowIntoZone(w, k, S)` puts `w` after all
members whose key is absent or at most `k`: the old sequence is split in two
parts around `w`, and every member of the part after `w` has a present key
strictly greater than `k`, every member of the part before it has not. -/
theorem InsertWindowIntoZone_after_not_greater (s : State) (w : HWND) (k : Nat)
    (S : ZoneIndexSet)
    (hsuffix : List.Pairwise (fun a b => KeyGreater s k a → KeyGreater s k b) (s.group S)) :
    ∃ before after,
      s.group S = before ++ after ∧
      (InsertWindowIntoZone s w (some k) S).group S = before ++ w :: after ∧
      (∀ t ∈ before, KeyNotGreater s k t) ∧
      (∀ t ∈ after, ¬ KeyNotGreater s k t) := by
  obtain ⟨before, after, hg, hnew, hbefore, hhead⟩ := InsertWindowIntoZone_split s w k S
  refine ⟨before, after, hg, hnew, ?_, ?_⟩
  · intro t ht
    apply (not_KeyGreater_iff s k t).mp
    intro hgt
    have h1 := hbefore t ht
    rw [(predicate_iff s k t).mpr hgt] at h1
    exact Bool.noConfusion h1
  · intro t ht hng
    apply (not_KeyGreater_iff s k t).mpr hng
    cases after with
    | nil => simp at ht
    | cons a rest =>
      have ha : KeyGreater s k a := (predicate_iff s k a).mp (hhead a rfl)
      rcases List.mem_cons.mp ht with e | e
      · rw [e]; exact ha
      · rw [hg] at hsuffix
        have h2 := (List.pairwise_append.mp hsuffix).2.1
        exact (List.pairwise_cons.mp h2).1 t e ha

theorem InsertWindowIntoZone_after_not_greater_witness :
    List.Pairwise (fun a b => KeyGreater sortedGroupState 3 a → KeyGreater sortedGroupState 3 b)
        (sortedGroupState.group [0]) ∧
    ∃ before after,
      sortedGroupState.group [0] = before ++ after ∧
      (InsertWindowIntoZone sortedGroupState 12 (some 3) [0]).group [0]
        = before ++ 12 :: after ∧
      (∀ t ∈ before, KeyNotGreater sortedGroupState 3 t) ∧
      (∀ t ∈ after, ¬ KeyNotGreater sortedGroupState 3 t) :=
  have h : List.Pairwise
      (fun a b => KeyGreater sortedGroupState 3 a → KeyGreater sortedGroupState 3 b)
      (sortedGroupState.group [0]) := by
    have hg : sortedGroupState.group [0] = [10, 11, 13] := by decide
    have h11 : KeyGreater sortedGroupState 3 11 := ⟨5, by decide, by decide⟩
    have h13 : KeyGreater sortedGroupState 3 13 := ⟨7, by decide, by decide⟩
    rw [hg]
    simp [h11, h13]
  ⟨h, InsertWindowIntoZone_after_not_greater sortedGroupState 12 3 [0] h⟩

/-! ## Insertion without a key -/

theorem InsertWindowIntoZone_key_none (s : State) (w : HWND) (S : ZoneIndexSet) :
    GetTabSortKeyWithinZone (InsertWindowIntoZone s w none S) w =
      some (match (s.group S).getLast? with
        | some prevTab =>
          match GetTabSortKeyWithinZone s prevTab with
          | some prevTabSortKeyWithinZone => (prevTabSortKeyWithinZone + 1) % sizeModulus
          | none => 0
        | none => 0) := by
  simp [InsertWindowIntoZone, SetTabSortKeyWithinZone, GetTabSortKeyWithinZone, State.group]

/-- Counterexample to claim C7 as stated. The last member of the group `[10]`
has key `2 ^ 64 - 1`; the window appended without a key gets key 0, not 1 + the
key of the previous last member. -/
theorem InsertWindowIntoZone_fresh_key_wraps :
    maxKeyState.group [0] = [10] ∧
    GetTabSortKeyWithinZone maxKeyState 10 = some (2 ^ 64 - 1) ∧
    GetTabSortKeyWithinZone (InsertWindowIntoZone maxKeyState 12 none [0]) 12 = some 0 ∧
    GetTabSortKeyWithinZone (InsertWindowIntoZone maxKeyState 12 none [0]) 12
      ≠ some (1 + (2 ^ 64 - 1)) := by
  decide

/-- Claim C7, amended. For every group sequence `g` and every window `w`
inserted by `InsertWindowIntoZone` without a key, the new sequence is `g`
followed by `w`; the key persisted for `w` is 1 + the key of the previous last
member taken modulo `2 ^ 64` when `g` is not empty and that member has a key
(so exactly 1 + that key whenever it is below `2 ^ 64 - 1`), and 0 when `g` is
empty or its last member has no key; the keys of all windows other than `w`
are unchanged. -/
theorem InsertWindowIntoZone_append (s : State) (w : HWND) (S : ZoneIndexSet) :
    (InsertWindowIntoZone s w none S).group S = s.group S ++ [w] ∧
    (∀ last p, (s.group S).getLast? = some last → GetTabSortKeyWithinZone s last = some p →
      GetTabSortKeyWithinZone (InsertWindowIntoZone s w none S) w = some ((1 + p) % 2 ^ 64) ∧
      (p < 2 ^ 64 - 1 →
        GetTabSortKeyWithinZone (InsertWindowIntoZone s w none S) w = some (1 + p))) ∧
    (s.group S = [] → GetTabSortKeyWithinZone (InsertWindowIntoZone s w none S) w = some 0) ∧
    (∀ last, (s.group S).getLast? = some last → GetTabSortKeyWithinZone s last = none →
      GetTabSortKeyWithinZone (InsertWindowIntoZone s w none S) w = some 0) ∧
    (∀ t, t ≠ w →
      GetTabSortKeyWithinZone (InsertWindowIntoZone s w none S) t
        = GetTabSortKeyWithinZone s t) := by
  refine ⟨group_assign s _ S _ (InsertWindowIntoZone_registry_none s w S), ?_, ?_, ?_, ?_⟩
  · intro last p hlast hp
    have hkey : GetTabSortKeyWithinZone (InsertWindowIntoZone s w none S) w
        = some ((1 + p) % 2 ^ 64) := by
      rw [InsertWindowIntoZone_key_none, hlast]
      simp only [hp, sizeModulus, Nat.add_comm]
    refine ⟨hkey, ?_⟩
    intro hlt
    rw [hkey, Nat.mod_eq_of_lt (by omega)]
  · intro hnil
    rw [InsertWindowIntoZone_key_none, hnil]
    rfl
  · intro last hlast hnone
    rw [InsertWindowIntoZone_key_none, hlast]
    simp only [hnone]
  · intro t ht
    exact InsertWindowIntoZone_tabSortKey_of_ne s w t none S ht

/-! ## Two defects of `Assign` -/

/-- Claim C1, evaluated at a failing run. After `Assign(1, {})` and
`Assign(1, {5})` from a fresh object, window 1 is recorded under `[5]` in
`m_windowIndexSet` and stands once in the group of `[5]`, but it also stands
once in the group of the empty zone combination: the state is reachable and the
equivalence of the claim fails in it. -/
theorem Assign_empty_zones_breaks_index :
    EditReachable emptyZonesState ∧
    emptyZonesState.m_windowIndexSet = [(1, [5])] ∧
    emptyZonesState.m_windowsByIndexSets = [([], [1]), ([5], [1])] ∧
    ¬ IndexMatchesGroups emptyZonesState :=
  ⟨EditReachable.step (EditReachable.step (EditReachable.init _) (EditStep.assign 1 []))
      (EditStep.assign 1 [5]),
    by decide, by decide,
    fun h => absurd ((h 1 []).mpr (by decide)) (by decide)⟩

/-- Claim C4, evaluated at a failing input. In the state after `Assign(1, {0})`
and `Assign(2, {0})` the group of `[0]` is `[1, 2]` with keys 0 and 1. A further
`Assign(1, {0})` does not put window 1 back before window 2 with key 0: the
group becomes `[2, 1]` and the key of window 1 becomes 2, because `Dismiss`
cleared the key before `Assign` read it. -/
theorem Assign_forgets_sort_key :
    twoTabsState.group [0] = [1, 2] ∧
    GetTabSortKeyWithinZone twoTabsState 1 = some 0 ∧
    GetTabSortKeyWithinZone twoTabsState 2 = some 1 ∧
    (Assign twoTabsState 1 [0]).group [0] = [2, 1] ∧
    GetTabSortKeyWithinZone (Assign twoTabsState 1 [0]) 1 = some 2 := by
  decide

/-! ## Groups and keys after `Dismiss` and `Assign` -/

theorem Dismiss_group_of_untracked (s : State) (w : HWND) (S : ZoneIndexSet)
    (h : Untracked s w) : (Dismiss s w).group S = s.group S := by
  unfold State.group
  rw [Dismiss_registry_of_untracked s w h]

theorem Dismiss_group_of_tracked (s : State) (w : HWND) (S0 S : ZoneIndexSet)
    (h : s.m_windowIndexSet.find w = some S0) :
    (Dismiss s w).group S = if S0 = S then (s.group S0).erase w else s.group S := by
  have hreg := Dismiss_registry_of_tracked s w S0 h
  by_cases hempty : ((s.group S0).erase w).isEmpty = true
  · simp only [hempty, if_true] at hreg
    have hnil : (s.group S0).erase w = [] := List.isEmpty_iff.mp hempty
    unfold State.group StdMap.value at *
    rw [hreg, StdMap.find_erase, StdMap.find_assign]
    by_cases hS : S0 = S
    · simp only [hS, if_true, Option.getD_none]
      rw [← hS]
      exact hnil.symm
    · simp [hS]
  · simp only [hempty, Bool.false_eq_true, if_false] at hreg
    unfold State.group StdMap.value at *
    rw [hreg, StdMap.find_assign]
    by_cases hS : S0 = S
    · simp [hS]
    · simp [hS]

theorem Assign_group (s : State) (w : HWND) (zones S : ZoneIndexSet) :
    (Assign s w zones).group S =
      if zones = S then (Dismiss s w).group zones ++ [w] else (Dismiss s w).group S := by
  have hreg := Assign_registry s w zones
  by_cases hS : zones = S
  · subst hS
    simp only [if_true]
    exact group_assign _ _ _ _ hreg
  · simp only [hS, if_false]
    exact group_assign_of_ne _ _ _ _ _ hreg hS

theorem Assign_tabSortKey_of_ne (s : State) (w x : HWND) (zones : ZoneIndexSet) (hx : x ≠ w) :
    GetTabSortKeyWithinZone (Assign s w zones) x = GetTabSortKeyWithinZone s x := by
  unfold Assign GetTabSortKeyWithinZone
  rw [InsertWindowIntoZone_tabSortKey_of_ne _ _ _ _ _ hx, foldl_pushIndex_tabSortKey,
    Dismiss_tabSortKey]
  simp [hx]

theorem Assign_tabSortKey_self (s : State) (w : HWND) (zones : ZoneIndexSet) :
    GetTabSortKeyWithinZone (Assign s w zones) w =
      some (match ((Dismiss s w).group zones).getLast? with
        | some prevTab =>
          match GetTabSortKeyWithinZone (Dismiss s w) prevTab with
          | some prevTabSortKeyWithinZone => (prevTabSortKeyWithinZone + 1) % sizeModulus
          | none => 0
        | none => 0) := by
  unfold Assign
  simp only [Assign_key_read, InsertWindowIntoZone_key_none]
  simp only [State.group, GetTabSortKeyWithinZone, foldl_pushIndex_registry,
    foldl_pushIndex_tabSortKey]

/-! ## Tab order follows assignment order -/

theorem assignAll_append (s : State) (S : ZoneIndexSet) (ws : List HWND) (w : HWND) :
    assignAll s S (ws ++ [w]) = Assign (assignAll s S ws) w S := by
  simp [assignAll, List.foldl_append]

theorem assignAll_spec (keys : HWND → Option Nat) (S : ZoneIndexSet) (hS : S ≠ [])
    (ws : List HWND) :
    ws.Nodup → ws.length ≤ 2 ^ 64 →
    (assignAll (State.empty keys) S ws).m_windowsByIndexSets
        = (if ws = [] then [] else [(S, ws)]) ∧
    (∀ w, (assignAll (State.empty keys) S ws).m_windowIndexSet.find w
        = if w ∈ ws then some S else none) ∧
    (∀ i w, ws[i]? = some w →
      GetTabSortKeyWithinZone (assignAll (State.empty keys) S ws) w = some i) := by
  induction ws using List.reverseRecOn with
  | nil =>
    intro _ _
    refine ⟨rfl, ?_, ?_⟩
    · intro w; simp [assignAll, State.empty, StdMap.find]
    · intro i w h; simp at h
  | append_singleton ws w ih =>
    intro hnodup hlen
    have hnd := List.nodup_append.mp hnodup
    have hw : w ∉ ws := fun hmem => hnd.2.2 hmem (by simp)
    have hlen' : ws.length < 2 ^ 64 := by
      rw [List.length_append] at hlen
      simp only [List.length_singleton] at hlen
      omega
    obtain ⟨hreg, hidx, hkeys⟩ := ih hnd.1 (by omega)
    rw [assignAll_append]
    generalize assignAll (State.empty keys) S ws = t at hreg hidx hkeys
    have hunt : Untracked t w := by
      unfold Untracked
      rw [hidx]
      simp [hw]
    have hg : t.group S = ws := by
      unfold State.group StdMap.value
      rw [hreg]
      by_cases hws : ws = []
      · simp [hws, StdMap.find]
      · simp [hws, StdMap.find]
    have hdg : (Dismiss t w).group S = ws := by
      rw [Dismiss_group_of_untracked t w S hunt, hg]
    refine ⟨?_, ?_, ?_⟩
    · rw [Assign_registry, hdg, Dismiss_registry_of_untracked t w hunt, hreg]
      have hirr : KeyOrder.lt S S = false := LawfulKeyOrder.lt_irrefl S
      by_cases hws : ws = []
      · simp [hws, StdMap.assign]
      · simp [hws, StdMap.assign, hirr]
    · intro x
      rw [Assign_index]
      simp only [hS, if_false, StdMap.find_assign, StdMap.find_erase, hidx]
      by_cases hx : w = x
      · simp [hx]
      · have hx' : ¬ x = w := fun e => hx e.symm
        simp [hx, hx']
    · intro i x hi
      by_cases hilt : i < ws.length
      · rw [List.getElem?_append_left hilt] at hi
        have hxmem : x ∈ ws := List.getElem?_mem hi
        have hxw : x ≠ w := fun e => hw (e ▸ hxmem)
        rw [Assign_tabSortKey_of_ne t w x S hxw]
        exact hkeys i x hi
      · have hieq : i = ws.length := by
          have := List.getElem?_eq_some.mp hi
          obtain ⟨hlt, _⟩ := this
          rw [List.length_append] at hlt
          simp only [List.length_singleton] at hlt
          omega
        subst hieq
        rw [List.getElem?_concat_length] at hi
        have hxw : x = w := (Option.some.inj hi).symm
        subst hxw
        rw [Assign_tabSortKey_self, hdg]
        by_cases hws : ws = []
        · simp [hws]
        · have hpos : 0 < ws.length := List.length_pos.mpr hws
          have hlast : ws.getLast? = ws[ws.length - 1]? := List.getLast?_eq_getElem? ws
          obtain ⟨last, hl⟩ : ∃ last, ws[ws.length - 1]? = some last := by
            have hlt : ws.length - 1 < ws.length := by omega
            exact ⟨ws[ws.length - 1], List.getElem?_eq_getElem hlt⟩
          have hlastmem : last ∈ ws := List.getElem?_mem hl
          have hlastw : last ≠ x := fun e => hw (e ▸ hlastmem)
          have hk : GetTabSortKeyWithinZone (Dismiss t x) last = some (ws.length - 1) := by
            have := hkeys _ last hl
            unfold GetTabSortKeyWithinZone at this ⊢
            rw [Dismiss_tabSortKey]
            simp [hlastw, this]
          rw [hlast, hl]
          simp only [hk, sizeModulus]
          have : ws.length - 1 + 1 = ws.length := by omega
          rw [this, Nat.mod_eq_of_lt hlen']

theorem length_le_of_handles (ws : List HWND) (hnodup : ws.Nodup)
    (hhandle : ∀ w ∈ ws, w < 2 ^ 64) : ws.length ≤ 2 ^ 64 := by
  have hsub : ws.toFinset ⊆ Finset.range (2 ^ 64) := by
    intro x hx
    exact Finset.mem_range.mpr (hhandle x (List.mem_toFinset.mp hx))
  have hcard := Finset.card_le_card hsub
  rw [List.toFinset_card_of_nodup hnodup, Finset.card_range] at hcard
  exact hcard

/-- Claim C8. For every non-empty zone combination `S` and every list of
pairwise distinct window handles `w1 .. wn` (64-bit values), whatever sort keys
the property store holds for them, the calls `Assign(w1, S); ...; Assign(wn, S)`
on a fresh object yield the tab order `[w1, ..., wn]` for `S` and no other
group, an index that maps exactly the windows `wi` to `S`, and the persisted
keys `0, 1, ..., n-1` for `w1 .. wn` in this order. -/
theorem tab_order_follows_assignment (keys : HWND → Option Nat) (S : ZoneIndexSet)
    (ws : List HWND) (hS : S ≠ []) (hnodup : ws.Nodup) (hhandle : ∀ w ∈ ws, w < 2 ^ 64) :
    (assignAll (State.empty keys) S ws).group S = ws ∧
    (∀ entry ∈ (assignAll (State.empty keys) S ws).m_windowsByIndexSets, entry = (S, ws)) ∧
    (∀ w, (assignAll (State.empty keys) S ws).m_windowIndexSet.find w
        = if w ∈ ws then some S else none) ∧
    (∀ i w, ws[i]? = some w →
      GetTabSortKeyWithinZone (assignAll (State.empty keys) S ws) w = some i) := by
  obtain ⟨hreg, hidx, hkeys⟩ :=
    assignAll_spec keys S hS ws hnodup (length_le_of_handles ws hnodup hhandle)
  refine ⟨?_, ?_, hidx, hkeys⟩
  · unfold State.group StdMap.value
    rw [hreg]
    by_cases hws : ws = []
    · simp [hws, StdMap.find]
    · simp [hws, StdMap.find]
  · intro entry he
    rw [hreg] at he
    by_cases hws : ws = []
    · simp [hws] at he
    · simpa [hws] using he

theorem tab_order_follows_assignment_witness :
    ([0, 1] : ZoneIndexSet) ≠ [] ∧ ([30, 10, 20] : List HWND).Nodup ∧
    (assignAll (State.empty (fun _ => some 9)) [0, 1] [30, 10, 20]).group [0, 1]
      = [30, 10, 20] ∧
    GetTabSortKeyWithinZone
      (assignAll (State.empty (fun _ => some 9)) [0, 1] [30, 10, 20]) 20 = some 2 :=
  have h := tab_order_follows_assignment (fun _ => some 9) [0, 1] [30, 10, 20]
    (by decide) (by decide) (by decide)
  ⟨by decide, by decide, h.1, h.2.2.2 2 20 rfl⟩

/-! ## Consistency of the two maps -/

theorem Consistent_empty (keys : HWND → Option Nat) : Consistent (State.empty keys) where
  sorted := List.Pairwise.nil
  noEmpty := by intro entry he; simp [State.empty] at he
  indexed := by intro w S h; simp [State.empty, StdMap.find] at h
  tracked := by intro S _ w hw; simp [State.empty, State.group, StdMap.value, StdMap.find] at hw
  nodup := by intro S _; simp [State.empty, State.group, StdMap.value, StdMap.find]

theorem Consistent_Dismiss (s : State) (w : HWND) (h : Consistent s) :
    Consistent (Dismiss s w) := by
  cases hf : s.m_windowIndexSet.find w with
  | none =>
    have hreg := Dismiss_registry_of_untracked s w hf
    have hidx : (Dismiss s w).m_windowIndexSet = s.m_windowIndexSet := by
      rw [Dismiss_index]; exact StdMap.erase_eq_self _ _ hf
    have hgroup : ∀ S, (Dismiss s w).group S = s.group S :=
      fun S => Dismiss_group_of_untracked s w S hf
    refine ⟨?_, NoEmptyGroups_Dismiss s w h.noEmpty, ?_, ?_, ?_⟩
    · rw [hreg]; exact h.sorted
    · intro x S hx
      rw [hidx] at hx
      rw [hgroup]
      exact h.indexed x S hx
    · intro S hS x hx
      rw [hgroup] at hx
      rw [hidx]
      exact h.tracked S hS x hx
    · intro S hS
      rw [hgroup]
      exact h.nodup S hS
  | some S0 =>
    have hS0 : S0 ≠ [] := (h.indexed w S0 hf).1
    have hgroup : ∀ S, (Dismiss s w).group S =
        if S0 = S then (s.group S0).erase w else s.group S :=
      fun S => Dismiss_group_of_tracked s w S0 S hf
    refine ⟨?_, NoEmptyGroups_Dismiss s w h.noEmpty, ?_, ?_, ?_⟩
    · rw [Dismiss_registry_of_tracked s w S0 hf]
      split
      · exact StdMap.sorted_erase _ _ (StdMap.sorted_assign _ _ _ h.sorted)
      · exact StdMap.sorted_assign _ _ _ h.sorted
    · intro x S hx
      rw [Dismiss_find_index] at hx
      by_cases hwx : w = x
      · simp [hwx] at hx
      · simp only [hwx, if_false] at hx
        obtain ⟨hS, hmem⟩ := h.indexed x S hx
        refine ⟨hS, ?_⟩
        rw [hgroup]
        by_cases hSS : S0 = S
        · simp only [hSS, if_true]
          exact (List.mem_erase_of_ne (fun e => hwx e.symm)).mpr hmem
        · simp only [hSS, if_false]
          exact hmem
    · intro S hS x hx
      rw [hgroup] at hx
      rw [Dismiss_find_index]
      by_cases hSS : S0 = S
      · subst hSS
        simp only [if_true] at hx
        have hx' := (List.Nodup.mem_erase_iff (h.nodup S0 hS0)).mp hx
        have hne : ¬ w = x := fun e => hx'.1 e.symm
        simp only [hne, if_false]
        exact h.tracked S0 hS0 x hx'.2
      · simp only [hSS, if_false] at hx
        have hxS := h.tracked S hS x hx
        have hne : ¬ w = x := by
          intro e
          subst e
          rw [hf] at hxS
          exact hSS (Option.some.inj hxS)
        simp only [hne, if_false]
        exact hxS
    · intro S hS
      rw [hgroup]
      by_cases hSS : S0 = S
      · simp only [hSS, if_true]
        exact List.Nodup.erase w (h.nodup S hS)
      · simp only [hSS, if_false]
        exact h.nodup S hS

theorem Consistent_Assign (s : State) (w : HWND) (zones : ZoneIndexSet) (h : Consistent s) :
    Consistent (Assign s w zones) := by
  have h1 := Consistent_Dismiss s w h
  have hunt : (Dismiss s w).m_windowIndexSet.find w = none := Untracked_Dismiss s w
  have hidx1 : (Dismiss s w).m_windowIndexSet = s.m_windowIndexSet.erase w := Dismiss_index s w
  have hgroup := Assign_group s w zones
  have hnotmem : ∀ S, S ≠ [] → w ∉ (Dismiss s w).group S := by
    intro S hS hmem
    have := h1.tracked S hS w hmem
    rw [hunt] at this
    exact Option.noConfusion this
  refine ⟨?_, NoEmptyGroups_Assign s w zones h.noEmpty, ?_, ?_, ?_⟩
  · rw [Assign_registry]
    exact StdMap.sorted_assign _ _ _ h1.sorted
  · intro x S hx
    rw [Assign_index, ← hidx1] at hx
    rw [hgroup]
    by_cases hz : zones = []
    · simp only [hz, if_true] at hx
      obtain ⟨hS, hmem⟩ := h1.indexed x S hx
      refine ⟨hS, ?_⟩
      have hne : ¬ zones = S := fun e => hS (by rw [← e, hz])
      simp only [hne, if_false]
      exact hmem
    · simp only [hz, if_false, StdMap.find_assign] at hx
      by_cases hwx : w = x
      · simp only [hwx, if_true, Option.some.injEq] at hx
        subst hx
        subst hwx
        exact ⟨hz, by simp⟩
      · simp only [hwx, if_false] at hx
        obtain ⟨hS, hmem⟩ := h1.indexed x S hx
        refine ⟨hS, ?_⟩
        by_cases hzS : zones = S
        · subst hzS
          simp only [if_true]
          exact List.mem_append_left _ hmem
        · simp only [hzS, if_false]
          exact hmem
  · intro S hS x hx
    rw [hgroup] at hx
    rw [Assign_index, ← hidx1]
    by_cases hz : zones = []
    · have hne : ¬ zones = S := fun e => hS (by rw [← e, hz])
      simp only [hne, if_false] at hx
      simp only [hz, if_true]
      exact h1.tracked S hS x hx
    · simp only [hz, if_false, StdMap.find_assign]
      by_cases hzS : zones = S
      · subst hzS
        simp only [if_true, List.mem_append, List.mem_singleton] at hx
        rcases hx with hx | hx
        · have hne : ¬ w = x := by
            intro e
            subst e
            exact hnotmem zones hS hx
          simp only [hne, if_false]
          exact h1.tracked zones hS x hx
        · simp [hx]
      · simp only [hzS, if_false] at hx
        have hxS := h1.tracked S hS x hx
        have hne : ¬ w = x := by
          intro e
          subst e
          exact hnotmem S hS hx
        simp only [hne, if_false]
        exact hxS
  · intro S hS
    rw [hgroup]
    by_cases hzS : zones = S
    · subst hzS
      simp only [if_true]
      refine List.nodup_append.mpr ⟨h1.nodup zones hS, by simp, ?_⟩
      intro x hx hx'
      have : x = w := by simpa using hx'
      subst this
      exact hnotmem zones hS hx
    · simp only [hzS, if_false]
      exact h1.nodup S hS

theorem Consistent_of_Reachable (s : State) (h : Reachable s) : Consistent s := by
  induction h with
  | init keys => exact Consistent_empty keys
  | step _ hstep ih =>
    cases hstep with
    | assign w zones => exact Consistent_Assign _ w zones ih
    | dismiss w => exact Consistent_Dismiss _ w ih
    | cycle live desk fuel w reverse r hr =>
      exact CycleWindows_preserves Consistent Consistent_Dismiss live desk fuel _ w reverse r
        ih hr
    | topmost desktop targetZone current =>
      rw [GetTopmostWindowFromTargetZone_state]; exact ih

/-- In a reachable state the `std::find` of `Dismiss` always finds the window:
the branch that is undefined in C++ is never taken. -/
theorem Dismiss_finds_window (s : State) (h : Reachable s) (w : HWND) (S : ZoneIndexSet)
    (hf : s.m_windowIndexSet.find w = some S) : w ∈ s.m_windowsByIndexSets.value S [] :=
  ((Consistent_of_Reachable s h).indexed w S hf).2

theorem Reachable_of_EditReachable (s : State) (h : EditReachable s) : Reachable s := by
  induction h with
  | init keys => exact Reachable.init keys
  | step _ hstep ih =>
    cases hstep with
    | assign w zones => exact Reachable.step ih (PublicStep.assign w zones)
    | dismiss w => exact Reachable.step ih (PublicStep.dismiss w)

/-! ## `Assign` followed by `Dismiss` -/

theorem StdMap.mem_of_find {K V : Type} [DecidableEq K] (m : StdMap K V) (k : K) (v : V)
    (h : m.find k = some v) : (k, v) ∈ m := by
  induction m with
  | nil => simp [StdMap.find] at h
  | cons p rest ih =>
    obtain ⟨k0, v0⟩ := p
    by_cases hk : k0 = k
    · simp only [StdMap.find, hk, if_true, Option.some.injEq] at h
      simp [hk, h]
    · simp only [StdMap.find, hk, if_false] at h
      exact List.mem_cons_of_mem _ (ih h)

theorem find_of_group_eq_nil (s : State) (S : ZoneIndexSet) (h : NoEmptyGroups s)
    (hg : s.group S = []) : s.m_windowsByIndexSets.find S = none := by
  cases hf : s.m_windowsByIndexSets.find S with
  | none => rfl
  | some g =>
    have hmem := StdMap.mem_of_find _ _ _ hf
    have hne := h (S, g) hmem
    have : s.group S = g := by simp [State.group, StdMap.value, hf]
    rw [hg] at this
    exact absurd this.symm hne

theorem find_of_group_ne_nil (s : State) (S : ZoneIndexSet) (hg : s.group S ≠ []) :
    s.m_windowsByIndexSets.find S = some (s.group S) := by
  cases hf : s.m_windowsByIndexSets.find S with
  | none => exact absurd (by simp [State.group, StdMap.value, hf]) hg
  | some g => simp [State.group, StdMap.value, hf]

/-- Claim C9. In every state reached from a fresh object by `Assign` and
`Dismiss` calls, for every window `w` without an entry in `m_windowIndexSet`
and every non-empty zone combination `S`, `Assign(w, S)` followed by
`Dismiss(w)` gives back the `m_windowIndexSet` and the `m_windowsByIndexSets`
of the starting state; a group that was created for `w` alone is erased. -/
theorem Assign_Dismiss_roundtrip (s : State) (w : HWND) (S : ZoneIndexSet)
    (hs : EditReachable s) (hw : Untracked s w) (hS : S ≠ []) :
    (Dismiss (Assign s w S) w).m_windowIndexSet = s.m_windowIndexSet ∧
    (Dismiss (Assign s w S) w).m_windowsByIndexSets = s.m_windowsByIndexSets := by
  have hc := Consistent_of_Reachable s (Reachable_of_EditReachable s hs)
  have hidx : (Assign s w S).m_windowIndexSet = s.m_windowIndexSet.assign w S := by
    rw [Assign_index, StdMap.erase_eq_self _ _ hw]
    simp [hS]
  have hfind : (Assign s w S).m_windowIndexSet.find w = some S := by
    rw [hidx, StdMap.find_assign]
    simp
  have hnotmem : w ∉ s.group S := by
    intro hmem
    have := hc.tracked S hS w hmem
    rw [hw] at this
    exact Option.noConfusion this
  have hreg : (Assign s w S).m_windowsByIndexSets
      = s.m_windowsByIndexSets.assign S (s.group S ++ [w]) := by
    rw [Assign_registry, Dismiss_group_of_untracked s w S hw,
      Dismiss_registry_of_untracked s w hw]
  have hgroup : (Assign s w S).group S = s.group S ++ [w] := group_assign _ _ _ _ hreg
  have herase : ((Assign s w S).group S).erase w = s.group S := by
    rw [hgroup, List.erase_append_right _ hnotmem]
    simp
  constructor
  · rw [Dismiss_index, hidx]
    exact StdMap.erase_assign _ _ _ hw
  · rw [Dismiss_registry_of_tracked _ w S hfind, herase, hreg, StdMap.assign_assign]
    by_cases hg : s.group S = []
    · have hnone := find_of_group_eq_nil s S hc.noEmpty hg
      simp only [hg, List.isEmpty_nil, if_true]
      exact StdMap.erase_assign _ _ _ hnone
    · have hsome := find_of_group_ne_nil s S hg
      have hne : (s.group S).isEmpty = false := by
        cases hgs : s.group S with
        | nil => exact absurd hgs hg
        | cons a l => rfl
      simp only [hne, Bool.false_eq_true, if_false]
      exact StdMap.assign_eq_self _ _ _ hc.sorted hsome

theorem Assign_Dismiss_roundtrip_witness :
    EditReachable twoTabsState ∧ Untracked twoTabsState 3 ∧ ([0] : ZoneIndexSet) ≠ [] ∧
    (Dismiss (Assign twoTabsState 3 [0]) 3).m_windowIndexSet = twoTabsState.m_windowIndexSet ∧
    (Dismiss (Assign twoTabsState 3 [0]) 3).m_windowsByIndexSets
      = twoTabsState.m_windowsByIndexSets :=
  have hr : EditReachable twoTabsState :=
    EditReachable.step (EditReachable.step (EditReachable.init _) (EditStep.assign 1 [0]))
      (EditStep.assign 2 [0])
  ⟨hr, by decide, by decide, Assign_Dismiss_roundtrip twoTabsState 3 [0] hr (by decide) (by decide)⟩

/-! ## Cycling: the next window of a group -/

theorem GetNextZoneWindow_fst_of_find (s : State) (S : ZoneIndexSet) (g : List HWND)
    (current : HWND) (reverse : Bool) (hf : s.m_windowsByIndexSets.find S = some g) :
    (GetNextZoneWindow s S current reverse).1 =
      if g.isEmpty then 0 else nextInVector g current reverse := by
  have hc : s.m_windowsByIndexSets.contains S = true := by simp [StdMap.contains, hf]
  have hsub : s.m_windowsByIndexSets.subscript S [] = s.m_windowsByIndexSets :=
    StdMap.subscript_of_contains _ _ _ hc
  have hv : s.m_windowsByIndexSets.value S [] = g := value_eq_of_find _ _ _ _ hf
  unfold GetNextZoneWindow nextInVector
  simp only [hc, Bool.not_true, Bool.false_eq_true, if_false, hsub, hv]
  by_cases he : g.isEmpty = true
  · simp [he]
  · simp only [he, Bool.false_eq_true, if_false]
    cases reverse <;> simp

theorem GetNextZoneWindow_fst_of_find_none (s : State) (S : ZoneIndexSet)
    (current : HWND) (reverse : Bool) (hf : s.m_windowsByIndexSets.find S = none) :
    (GetNextZoneWindow s S current reverse).1 = 0 := by
  unfold GetNextZoneWindow
  simp [StdMap.contains, hf]

theorem nextInVector_forward (g : List HWND) (hnodup : g.Nodup) (i : Nat) (c : HWND)
    (hc : g[i]? = some c) : g[(i + 1) % g.length]? = some (nextInVector g c false) := by
  obtain ⟨hi, hget⟩ := List.getElem?_eq_some.mp hc
  have hidx : g.indexOf c = i := by
    rw [← hget]
    exact List.indexOf_getElem hnodup i hi
  unfold nextInVector
  simp only [Bool.not_false, if_true, hidx]
  by_cases hlast : i + 1 = g.length
  · simp only [hlast, if_true, Nat.mod_self]
    cases g with
    | nil => simp at hi
    | cons a l => simp
  · have hlt : i + 1 < g.length := by omega
    simp only [hlast, if_false, Nat.mod_eq_of_lt hlt]
    rw [List.getD_eq_getElem g 0 hlt]
    exact List.getElem?_eq_getElem hlt

theorem nextInVector_backward (g : List HWND) (hnodup : g.Nodup) (i : Nat) (c : HWND)
    (hc : g[i]? = some c) :
    g[(i + g.length - 1) % g.length]? = some (nextInVector g c true) := by
  obtain ⟨hi, hget⟩ := List.getElem?_eq_some.mp hc
  have hidx : g.indexOf c = i := by
    rw [← hget]
    exact List.indexOf_getElem hnodup i hi
  unfold nextInVector
  simp only [Bool.not_true, Bool.false_eq_true, if_false, hidx]
  by_cases h0 : i = 0
  · subst h0
    have hlt : g.length - 1 < g.length := by omega
    simp only [if_true, Nat.zero_add, Nat.mod_eq_of_lt hlt]
    rw [List.getLastD_eq_getLast?, List.getLast?_eq_getElem?, List.getElem?_eq_getElem hlt]
    rfl
  · have hlt : i - 1 < g.length := by omega
    have hmod : (i + g.length - 1) % g.length = i - 1 := by
      have : i + g.length - 1 = (i - 1) + g.length := by omega
      rw [this, Nat.add_mod_right, Nat.mod_eq_of_lt hlt]
    simp only [h0, if_false, hmod]
    rw [List.getD_eq_getElem g 0 hlt]
    exact List.getElem?_eq_getElem hlt

/-- Claim C11. For every registered group whose sequence `g` has pairwise
distinct windows and every window `c` at position `i` of `g` (0-based, `n` the
length of `g`), `GetNextZoneWindow(S, c, reverse = false)` returns
`g[(i + 1) mod n]` and `GetNextZoneWindow(S, c, reverse = true)` returns
`g[(i + n - 1) mod n]`; when `S` is not a registered group the call returns no
window (the null handle). -/
theorem GetNextZoneWindow_wraps (s : State) (S : ZoneIndexSet) :
    (∀ g, s.m_windowsByIndexSets.find S = some g → g.Nodup → ∀ i c, g[i]? = some c →
      g[(i + 1) % g.length]? = some (GetNextZoneWindow s S c false).1 ∧
      g[(i + g.length - 1) % g.length]? = some (GetNextZoneWindow s S c true).1) ∧
    (s.m_windowsByIndexSets.find S = none →
      ∀ c reverse, (GetNextZoneWindow s S c reverse).1 = 0) := by
  constructor
  · intro g hf hnodup i c hc
    have hne : g.isEmpty = false := by
      cases g with
      | nil => simp at hc
      | cons a l => rfl
    rw [GetNextZoneWindow_fst_of_find s S g c false hf,
      GetNextZoneWindow_fst_of_find s S g c true hf]
    simp only [hne, Bool.false_eq_true, if_false]
    exact ⟨nextInVector_forward g hnodup i c hc, nextInVector_backward g hnodup i c hc⟩
  · intro hf c reverse
    exact GetNextZoneWindow_fst_of_find_none s S c reverse hf

theorem GetNextZoneWindow_wraps_witness :
    threeTabsState.m_windowsByIndexSets.find [0] = some [1, 2, 3] ∧
    (GetNextZoneWindow threeTabsState [0] 3 false).1 = 1 ∧
    (GetNextZoneWindow threeTabsState [0] 1 true).1 = 3 ∧
    (GetNextZoneWindow threeTabsState [4] 1 false).1 = 0 :=
  have h := (GetNextZoneWindow_wraps threeTabsState [0]).1 [1, 2, 3] (by decide) (by decide)
  have h3 := (h 2 3 rfl).1
  have h1 := (h 0 1 rfl).2
  ⟨by decide, (Option.some.inj h3).symm, (Option.some.inj h1).symm,
    (GetNextZoneWindow_wraps threeTabsState [4]).2 (by decide) 1 false⟩

/-! ## The emptiness query -/

theorem StdMap.mem_assign_self {K V : Type} [DecidableEq K] [KeyOrder K] (m : StdMap K V)
    (k : K) (v : V) : (k, v) ∈ StdMap.assign k v m := by
  induction m with
  | nil => simp [StdMap.assign]
  | cons p rest ih =>
    obtain ⟨k0, v0⟩ := p
    simp only [StdMap.assign]
    by_cases h1 : KeyOrder.lt k k0 = true
    · simp [h1]
    · by_cases h2 : k = k0
      · subst h2
        simp [h1]
      · simp only [h1, h2, Bool.false_eq_true, if_false]
        exact List.mem_cons_of_mem _ ih

theorem IsZoneEmpty_iff (s : State) (z : ZoneIndex) :
    IsZoneEmpty s z = true ↔ ∀ entry ∈ s.m_windowIndexSet, z ∉ entry.2 := by
  unfold IsZoneEmpty
  simp [List.all_eq_true]

/-- Claim C16. In every state `IsZoneEmpty(z)` is true exactly when no entry of
`m_windowIndexSet` has a zone sequence containing `z`; after `Assign(w, S)` from
any state it is false for every `z` occurring in `S`; and after
`Assign(W1, {2})` on a fresh object `IsZoneEmpty(3)` is true. -/
theorem IsZoneEmpty_spec (s : State) (z : ZoneIndex) :
    (IsZoneEmpty s z = true ↔ ∀ entry ∈ s.m_windowIndexSet, z ∉ entry.2) ∧
    (∀ w S, z ∈ S → IsZoneEmpty (Assign s w S) z = false) ∧
    (∀ keys w1, IsZoneEmpty (Assign (State.empty keys) w1 [2]) 3 = true) := by
  refine ⟨IsZoneEmpty_iff s z, ?_, ?_⟩
  · intro w S hz
    have hS : S ≠ [] := by
      intro e
      rw [e] at hz
      simp at hz
    have hmem : (w, S) ∈ (Assign s w S).m_windowIndexSet := by
      rw [Assign_index]
      simp only [hS, if_false]
      exact StdMap.mem_assign_self _ w S
    cases hres : IsZoneEmpty (Assign s w S) z with
    | false => rfl
    | true => exact absurd hz ((IsZoneEmpty_iff _ z).mp hres (w, S) hmem)
  · intro keys w1
    rw [IsZoneEmpty_iff, Assign_index]
    intro entry he
    simp [State.empty, StdMap.erase, StdMap.assign] at he
    rw [he]
    simp

theorem IsZoneEmpty_spec_witness :
    IsZoneEmpty (Assign (State.empty (fun _ => none)) 1 [2]) 2 = false ∧
    IsZoneEmpty (Assign (State.empty (fun _ => none)) 1 [2]) 3 = true :=
  ⟨(IsZoneEmpty_spec (State.empty (fun _ => none)) 2).2.1 1 [2] (by decide),
    (IsZoneEmpty_spec (State.empty (fun _ => none)) 3).2.2 (fun _ => none) 1⟩

/-! ## Other windows are undisturbed -/

theorem filter_erase_self (g : List HWND) (w : HWND) :
    (g.erase w).filter (fun x => x != w) = g.filter (fun x => x != w) := by
  induction g with
  | nil => rfl
  | cons a l ih =>
    by_cases ha : a = w
    · subst ha
      simp
    · have hne : (a == w) = false := by simpa using ha
      rw [List.erase_cons_tail (by simpa using ha), List.filter_cons, List.filter_cons, ih]

/-- Claim C18. In every state, for every window `w` and zone sequence `S`, both
`Assign(w, S)` and `Dismiss(w)` leave every group's sequence with `w` filtered
out as it was (an absent group counting as the empty sequence), and leave the
persisted sort key of every window other than `w` as it was. -/
theorem others_undisturbed (s : State) (w : HWND) (S : ZoneIndexSet) :
    (∀ S', ((Assign s w S).group S').filter (fun x => x != w)
      = (s.group S').filter (fun x => x != w)) ∧
    (∀ S', ((Dismiss s w).group S').filter (fun x => x != w)
      = (s.group S').filter (fun x => x != w)) ∧
    (∀ x, x ≠ w → GetTabSortKeyWithinZone (Assign s w S) x = GetTabSortKeyWithinZone s x) ∧
    (∀ x, x ≠ w → GetTabSortKeyWithinZone (Dismiss s w) x = GetTabSortKeyWithinZone s x) := by
  have hdismiss : ∀ S', ((Dismiss s w).group S').filter (fun x => x != w)
      = (s.group S').filter (fun x => x != w) := by
    intro S'
    cases hf : s.m_windowIndexSet.find w with
    | none => rw [Dismiss_group_of_untracked s w S' hf]
    | some S0 =>
      rw [Dismiss_group_of_tracked s w S0 S' hf]
      by_cases hS : S0 = S'
      · subst hS
        simp only [if_true]
        exact filter_erase_self _ w
      · simp only [hS, if_false]
  refine ⟨?_, hdismiss, ?_, ?_⟩
  · intro S'
    rw [Assign_group]
    by_cases hS : S = S'
    · subst hS
      simp only [if_true, List.filter_append]
      rw [hdismiss]
      simp
    · simp only [hS, if_false]
      exact hdismiss S'
  · intro x hx
    exact Assign_tabSortKey_of_ne s w x S hx
  · intro x hx
    simp [GetTabSortKeyWithinZone, Dismiss_tabSortKey, hx]

theorem others_undisturbed_witness :
    ((Assign twoTabsState 1 [0]).group [0]).filter (fun x => x != 1)
      = (twoTabsState.group [0]).filter (fun x => x != 1) ∧
    GetTabSortKeyWithinZone (Dismiss twoTabsState 1) 2 = GetTabSortKeyWithinZone twoTabsState 2 :=
  ⟨(others_undisturbed twoTabsState 1 [0]).1 [0],
    (others_undisturbed twoTabsState 1 [0]).2.2.2 2 (by decide)⟩

/-! ## Queries leave the object as it is -/

theorem CycleWindowsLoop_trace (IsWindow IsWindowOnCurrentDesktop : HWND → Bool)
    (S : ZoneIndexSet) (w : HWND) (reverse : Bool) (fuel : Nat) :
    ∀ (s : State) (dismissed : List HWND) (r : CycleResult),
      CycleWindowsLoop IsWindow IsWindowOnCurrentDesktop S w reverse fuel s dismissed = some r →
      ∃ ds, r.dismissed = dismissed ++ ds ∧ r.state = ds.foldl Dismiss s := by
  induction fuel with
  | zero => intro s d r hr; simp [CycleWindowsLoop] at hr
  | succ n ih =>
    intro s d r hr
    unfold CycleWindowsLoop at hr
    have hst := GetNextZoneWindow_state s S w reverse
    revert hr
    cases hnext : GetNextZoneWindow s S w reverse with
    | mk next s1 =>
      rw [hnext] at hst
      simp only at hst
      subst hst
      simp only
      intro hr
      by_cases h0 : next = 0
      · simp only [h0, if_true, Option.some.injEq] at hr
        rw [← hr]; exact ⟨[], by simp, rfl⟩
      · by_cases hlive : IsWindow next = true
        · by_cases hdesk : IsWindowOnCurrentDesktop next = true
          · simp only [h0, hlive, hdesk, if_false, if_true, Bool.not_true, Bool.false_eq_true,
              Option.some.injEq] at hr
            rw [← hr]; exact ⟨[], by simp, rfl⟩
          · simp only [h0, hlive, hdesk, if_false, Bool.not_true, Bool.false_eq_true,
              Option.some.injEq] at hr
            rw [← hr]; exact ⟨[], by simp, rfl⟩
        · simp only [h0, hlive, if_false, Bool.not_false, if_true] at hr
          obtain ⟨ds, hd, hs⟩ := ih _ _ r hr
          exact ⟨next :: ds, by simp [hd], by simp [hs]⟩

theorem CycleWindows_trace (IsWindow IsWindowOnCurrentDesktop : HWND → Bool) (fuel : Nat)
    (s : State) (w : HWND) (reverse : Bool) (r : CycleResult)
    (hr : CycleWindows IsWindow IsWindowOnCurrentDesktop fuel s w reverse = some r) :
    r.state = r.dismissed.foldl Dismiss s := by
  unfold CycleWindows at hr
  simp only at hr
  split at hr
  · simp only [Option.some.injEq] at hr
    rw [← hr]; rfl
  · obtain ⟨ds, hd, hs⟩ := CycleWindowsLoop_trace _ _ _ _ _ _ _ _ _ hr
    simp only [List.nil_append] at hd
    rw [hd, hs]

theorem CycleWindows_all_live (IsWindow IsWindowOnCurrentDesktop : HWND → Bool) (fuel : Nat)
    (s : State) (w : HWND) (reverse : Bool) (hlive : ∀ x, IsWindow x = true) :
    ∃ r, CycleWindows IsWindow IsWindowOnCurrentDesktop (fuel + 1) s w reverse = some r ∧
      r.state = s ∧ r.dismissed = [] := by
  unfold CycleWindows
  simp only
  split
  · exact ⟨_, rfl, rfl, rfl⟩
  · unfold CycleWindowsLoop
    have hst := GetNextZoneWindow_state s (GetZoneIndexSetFromWindow s w) w reverse
    cases hnext : GetNextZoneWindow s (GetZoneIndexSetFromWindow s w) w reverse with
    | mk next s1 =>
      rw [hnext] at hst
      simp only at hst
      subst hst
      simp only [hlive, Bool.not_true, Bool.false_eq_true, if_false]
      split
      · exact ⟨_, rfl, rfl, rfl⟩
      · split
        · exact ⟨_, rfl, rfl, rfl⟩
        · exact ⟨_, rfl, rfl, rfl⟩

/-- Claim C17. The `const` queries `SnappedWindows`, `GetZoneIndexSetFromWindow`
and `IsZoneEmpty` return a value and cannot touch the object. In every state
and for all arguments `GetNextZoneWindow` and `GetTopmostWindowFromTargetZone`
leave the object exactly as it was (no group key is created or removed, also
for zone sequences that are not registered); a completed `CycleWindows` call
that dismissed no window, that is whose examined candidates were all live,
leaves it as it was; and when every window is live `CycleWindows` ends in its
first turn with the object unchanged. -/
theorem queries_read_only (s : State) :
    (∀ S current reverse, (GetNextZoneWindow s S current reverse).2 = s) ∧
    (∀ desktop targetZone currentWindowZones,
      (GetTopmostWindowFromTargetZone desktop s targetZone currentWindowZones).2 = s) ∧
    (∀ IsWindow IsWindowOnCurrentDesktop fuel w reverse r,
      CycleWindows IsWindow IsWindowOnCurrentDesktop fuel s w reverse = some r →
      r.dismissed = [] → r.state = s) ∧
    (∀ IsWindow IsWindowOnCurrentDesktop fuel w reverse, (∀ x, IsWindow x = true) →
      ∃ r, CycleWindows IsWindow IsWindowOnCurrentDesktop (fuel + 1) s w reverse = some r ∧
        r.state = s ∧ r.dismissed = []) := by
  refine ⟨GetNextZoneWindow_state s, ?_, ?_, ?_⟩
  · intro desktop targetZone currentWindowZones
    exact GetTopmostWindowFromTargetZone_state desktop s targetZone currentWindowZones
  · intro live desk fuel w reverse r hr hd
    have := CycleWindows_trace live desk fuel s w reverse r hr
    rw [hd] at this
    exact this
  · intro live desk fuel w reverse hlive
    exact CycleWindows_all_live live desk fuel s w reverse hlive

theorem queries_read_only_witness :
    (GetNextZoneWindow threeTabsState [7] 1 false).2 = threeTabsState ∧
    (GetTopmostWindowFromTargetZone [3, 2, 1] threeTabsState 0 [5]).2 = threeTabsState ∧
    ∃ r, CycleWindows (fun _ => true) (fun _ => true) 1 threeTabsState 1 false = some r ∧
      r.state = threeTabsState ∧ r.dismissed = [] :=
  ⟨(queries_read_only threeTabsState).1 [7] 1 false,
    (queries_read_only threeTabsState).2.1 [3, 2, 1] 0 [5],
    (queries_read_only threeTabsState).2.2.2 (fun _ => true) (fun _ => true) 0 1 false
      (fun _ => rfl)⟩

/-! ## The topmost resolver answers from a qualifying group -/

theorem lowestZOrderWalk_mem (windows : List HWND) (desktop : List HWND) :
    ∀ zOrder : Int, (lowestZOrderWalk windows desktop zOrder).1 = 0 ∨
      (lowestZOrderWalk windows desktop zOrder).1 ∈ windows := by
  induction desktop with
  | nil => intro z; exact Or.inl rfl
  | cons a below ih =>
    intro z
    unfold lowestZOrderWalk
    by_cases h0 : a = 0
    · simp [h0]
    · by_cases hmem : a ∈ windows
      · simp [h0, hmem]
      · simp only [h0, hmem, if_false]
        exact ih (z + 1)

theorem GetLowestZOrderWindow_mem (desktop windows : List HWND) :
    (GetLowestZOrderWindow desktop windows).1 = 0 ∨
      (GetLowestZOrderWindow desktop windows).1 ∈ windows :=
  lowestZOrderWalk_mem windows desktop 0

theorem topmostLoop_qualifies (desktop : List HWND) (targetZone : ZoneIndex)
    (currentWindowZones : ZoneIndexSet) (keys : List ZoneIndexSet) :
    ∀ (s : State) (topmostWindow : HWND) (lowestZOrder : Int),
      (∀ k ∈ keys, s.m_windowsByIndexSets.contains k = true ∧ k ≠ currentWindowZones ∧
        targetZone ∈ k) →
      (topmostWindow = 0 ∨ ∃ entry ∈ s.m_windowsByIndexSets,
        Qualifies targetZone currentWindowZones entry ∧ topmostWindow ∈ entry.2) →
      ((topmostLoop desktop keys s topmostWindow lowestZOrder).1 = 0 ∨
        ∃ entry ∈ s.m_windowsByIndexSets, Qualifies targetZone currentWindowZones entry ∧
          (topmostLoop desktop keys s topmostWindow lowestZOrder).1 ∈ entry.2) := by
  induction keys with
  | nil => intro s t l _ ht; exact ht
  | cons k rest ih =>
    intro s t l hk ht
    obtain ⟨hc, hne, htarget⟩ := hk k (by simp)
    have hs : ({ s with m_windowsByIndexSets := s.m_windowsByIndexSets.subscript k [] } : State)
        = s := by
      rw [StdMap.subscript_of_contains _ _ _ hc]
    have hrest : ∀ k' ∈ rest, s.m_windowsByIndexSets.contains k' = true ∧
        k' ≠ currentWindowZones ∧ targetZone ∈ k' :=
      fun k' hk' => hk k' (by simp [hk'])
    have hsub := StdMap.subscript_of_contains s.m_windowsByIndexSets k [] hc
    unfold topmostLoop
    simp only [hs, hsub]
    split
    · exact Or.inl rfl
    · split
      · apply ih _ _ _ hrest
        rcases GetLowestZOrderWindow_mem desktop (s.m_windowsByIndexSets.value k []) with h | h
        · exact Or.inl h
        · right
          cases hf : s.m_windowsByIndexSets.find k with
          | none =>
            rw [value_eq_of_find_none _ _ _ hf] at h
            simp at h
          | some g =>
            have hv := value_eq_of_find s.m_windowsByIndexSets k [] g hf
            rw [hv] at h
            refine ⟨(k, g), StdMap.mem_of_find _ _ _ hf, ⟨hne, htarget⟩, ?_⟩
            rw [hv]
            exact h
      · exact ih _ _ _ hrest ht

/-- Claim C15. For every registry, target zone, `currentWindowZones` and window
order, `GetTopmostWindowFromTargetZone` returns either no window (the null
handle) or a member of some group whose key differs from `currentWindowZones`
and contains `targetZone`; and it returns no window whenever no such group
exists. -/
theorem topmost_from_qualifying_group (desktop : List HWND) (s : State)
    (targetZone : ZoneIndex) (currentWindowZones : ZoneIndexSet) :
    ((GetTopmostWindowFromTargetZone desktop s targetZone currentWindowZones).1 = 0 ∨
      ∃ entry ∈ s.m_windowsByIndexSets, Qualifies targetZone currentWindowZones entry ∧
        (GetTopmostWindowFromTargetZone desktop s targetZone currentWindowZones).1 ∈ entry.2) ∧
    ((∀ entry ∈ s.m_windowsByIndexSets, ¬ Qualifies targetZone currentWindowZones entry) →
      (GetTopmostWindowFromTargetZone desktop s targetZone currentWindowZones).1 = 0) := by
  constructor
  · unfold GetTopmostWindowFromTargetZone
    simp only
    split
    · exact Or.inl rfl
    · apply topmostLoop_qualifies
      · intro k hk
        obtain ⟨entry, he, hke⟩ := List.mem_map.mp hk
        obtain ⟨hmem, hq⟩ := List.mem_filter.mp he
        obtain ⟨k0, v0⟩ := entry
        simp only at hke
        subst hke
        simp only [Bool.and_eq_true, decide_eq_true_eq] at hq
        exact ⟨StdMap.contains_of_mem _ _ _ hmem, hq.1, hq.2⟩
      · exact Or.inl rfl
  · intro hnone
    unfold GetTopmostWindowFromTargetZone
    have hempty : (s.m_windowsByIndexSets.filter
        (fun entry => decide (entry.1 ≠ currentWindowZones) && decide (targetZone ∈ entry.1)))
        = [] := by
      apply List.filter_eq_nil_iff.mpr
      intro entry he
      have := hnone entry he
      unfold Qualifies at this
      simpa using this
    simp only [hempty, List.map_nil, List.isEmpty_nil, if_true]

theorem topmost_from_qualifying_group_witness :
    (GetTopmostWindowFromTargetZone [3, 1, 2] threeGroupsState 1 [0]).1 = 3 ∧
    (GetTopmostWindowFromTargetZone [3, 1, 2] threeGroupsState 5 [0]).1 = 0 :=
  ⟨by decide,
    (topmost_from_qualifying_group [3, 1, 2] threeGroupsState 5 [0]).2 (by decide)⟩

/-! ## The topmost resolver and windows missing from the window order -/

/-- Claim C14, evaluated at a failing input. With the groups `[0] = [1]`,
`[0, 1] = [3]` and `[1] = [2]` and a window order `[1, 2]` that no longer holds
window 3, the groups of `[0, 1]` and `[1]` qualify for target zone 1 and
current zones `[0]`. The frontmost member found in a qualifying group is
window 2, at depth 1, but `GetLowestZOrderWindow` answers `(null, 0)` for the
group of `[0, 1]` and depth 0 wins: the resolver returns no window. -/
theorem topmost_lost_to_missing_window :
    threeGroupsState.m_windowsByIndexSets = [([0], [1]), ([0, 1], [3]), ([1], [2])] ∧
    GetLowestZOrderWindow [1, 2] (threeGroupsState.group [0, 1]) = (0, 0) ∧
    GetLowestZOrderWindow [1, 2] (threeGroupsState.group [1]) = (2, 1) ∧
    (GetTopmostWindowFromTargetZone [1, 2] threeGroupsState 1 [0]).1 = 0 := by
  decide

/-! ## Index consistency when no `Assign` gets an empty zone sequence -/

theorem StdMap.find_of_mem_sorted {K V : Type} [DecidableEq K] [KeyOrder K] [LawfulKeyOrder K]
    (m : StdMap K V) (k : K) (v : V) (hs : StdMap.Sorted m) (h : (k, v) ∈ m) :
    m.find k = some v := by
  induction m with
  | nil => simp at h
  | cons p rest ih =>
    obtain ⟨k0, v0⟩ := p
    have hs' := List.pairwise_cons.mp hs
    rcases List.mem_cons.mp h with e | e
    · have h1 : k0 = k := (congrArg Prod.fst e).symm
      have h2 : v0 = v := (congrArg Prod.snd e).symm
      simp [StdMap.find, h1, h2]
    · have hlt : KeyOrder.lt k0 k = true := hs'.1 (k, v) e
      have hne : ¬ k0 = k := by
        intro hk
        rw [hk, LawfulKeyOrder.lt_irrefl] at hlt
        exact Bool.noConfusion hlt
      simp only [StdMap.find, hne, if_false]
      exact ih hs'.2 e

theorem Dismiss_find_registry_nil (s : State) (w : HWND) (hc : Consistent s)
    (h0 : s.m_windowsByIndexSets.find [] = none) :
    (Dismiss s w).m_windowsByIndexSets.find [] = none := by
  cases hf : s.m_windowIndexSet.find w with
  | none => rw [Dismiss_registry_of_untracked s w hf]; exact h0
  | some S0 =>
    have hS0 : S0 ≠ [] := (hc.indexed w S0 hf).1
    rw [Dismiss_registry_of_tracked s w S0 hf]
    split
    · rw [StdMap.find_erase, StdMap.find_assign]
      simp [hS0, h0]
    · rw [StdMap.find_assign]
      simp [hS0, h0]

theorem NonEmptyReachable_invariant (s : State) (h : NonEmptyReachable s) :
    Consistent s ∧ s.m_windowsByIndexSets.find [] = none := by
  induction h with
  | init keys => exact ⟨Consistent_empty keys, rfl⟩
  | step _ hstep ih =>
    cases hstep with
    | assign w zones hz =>
      refine ⟨Consistent_Assign _ w zones ih.1, ?_⟩
      rw [Assign_registry, StdMap.find_assign]
      simp only [hz, if_false]
      exact Dismiss_find_registry_nil _ w ih.1 ih.2
    | dismiss w =>
      exact ⟨Consistent_Dismiss _ w ih.1, Dismiss_find_registry_nil _ w ih.1 ih.2⟩
    | cycle live desk fuel w reverse r hr =>
      exact CycleWindows_preserves
        (fun t => Consistent t ∧ t.m_windowsByIndexSets.find [] = none)
        (fun t x ht => ⟨Consistent_Dismiss t x ht.1, Dismiss_find_registry_nil t x ht.1 ht.2⟩)
        live desk fuel _ w reverse r ih hr

/-- Claim C19. After every finite run of `Assign`, `Dismiss` and `CycleWindows`
calls on a fresh object in which every `Assign` gets a non-empty zone sequence:
every window recorded in `m_windowIndexSet` with zone sequence `S` occurs
exactly once in the group of `S`; every window occurring in a group is
recorded in `m_windowIndexSet` with that group's key; and no window occurs in
more than one group. -/
theorem index_consistency (s : State) (h : NonEmptyReachable s) :
    (∀ w S, s.m_windowIndexSet.find w = some S → (s.group S).count w = 1) ∧
    (∀ entry ∈ s.m_windowsByIndexSets, ∀ w ∈ entry.2,
      s.m_windowIndexSet.find w = some entry.1) ∧
    (∀ e1 ∈ s.m_windowsByIndexSets, ∀ e2 ∈ s.m_windowsByIndexSets, ∀ w,
      w ∈ e1.2 → w ∈ e2.2 → e1 = e2) := by
  obtain ⟨hc, h0⟩ := NonEmptyReachable_invariant s h
  have hentry : ∀ entry ∈ s.m_windowsByIndexSets, ∀ w ∈ entry.2,
      s.m_windowIndexSet.find w = some entry.1 := by
    intro entry he w hw
    obtain ⟨k, g⟩ := entry
    have hf := StdMap.find_of_mem_sorted _ k g hc.sorted he
    have hk : k ≠ [] := by
      intro e
      rw [e, h0] at hf
      exact Option.noConfusion hf
    have hg : s.group k = g := value_eq_of_find _ _ _ _ hf
    exact hc.tracked k hk w (by rw [hg]; exact hw)
  refine ⟨?_, hentry, ?_⟩
  · intro w S hf
    obtain ⟨hS, hmem⟩ := hc.indexed w S hf
    exact List.count_eq_one_of_mem (hc.nodup S hS) hmem
  · intro e1 he1 e2 he2 w hw1 hw2
    have h1 := hentry e1 he1 w hw1
    have h2 := hentry e2 he2 w hw2
    rw [h1] at h2
    have hk : e1.1 = e2.1 := Option.some.inj h2
    obtain ⟨k1, g1⟩ := e1
    obtain ⟨k2, g2⟩ := e2
    simp only at hk
    subst hk
    have hf1 := StdMap.find_of_mem_sorted _ k1 g1 hc.sorted he1
    have hf2 := StdMap.find_of_mem_sorted _ k1 g2 hc.sorted he2
    rw [hf1] at hf2
    rw [Option.some.inj hf2]

theorem index_consistency_witness :
    NonEmptyReachable threeGroupsState ∧
    (threeGroupsState.group [0, 1]).count 3 = 1 ∧
    threeGroupsState.m_windowIndexSet.find 2 = some [1] :=
  have hr : NonEmptyReachable threeGroupsState :=
    NonEmptyReachable.step
      (NonEmptyReachable.step
        (NonEmptyReachable.step (NonEmptyReachable.init _)
          (NonEmptyStep.assign 1 [0] (by decide)))
        (NonEmptyStep.assign 2 [1] (by decide)))
      (NonEmptyStep.assign 3 [0, 1] (by decide))
  ⟨hr, (index_consistency threeGroupsState hr).1 3 [0, 1] (by decide),
    (index_consistency threeGroupsState hr).2.1 ([1], [2]) (by decide) 2 (by decide)⟩

/-! ## Ordered insertion keeps a group in key order -/

theorem InsertWindowIntoZone_key_some (s : State) (w : HWND) (k : Nat) (S : ZoneIndexSet) :
    GetTabSortKeyWithinZone (InsertWindowIntoZone s w (some k) S) w = some k := by
  simp [InsertWindowIntoZone, SetTabSortKeyWithinZone, GetTabSortKeyWithinZone]

theorem InsertWindowIntoZone_key_of_ne (s : State) (w x : HWND) (key : Option Nat)
    (S : ZoneIndexSet) (hx : x ≠ w) :
    GetTabSortKeyWithinZone (InsertWindowIntoZone s w key S) x = GetTabSortKeyWithinZone s x :=
  InsertWindowIntoZone_tabSortKey_of_ne s w x key S hx

theorem KeysNonDecreasing_insert (s t : State) (w : HWND) (kw : Nat) (before after : List HWND)
    (hw : w ∉ before ++ after)
    (hkeys : ∀ x, x ≠ w → GetTabSortKeyWithinZone t x = GetTabSortKeyWithinZone s x)
    (hkw : GetTabSortKeyWithinZone t w = some kw)
    (hsorted : KeysNonDecreasing s (before ++ after))
    (hbefore : ∀ x ∈ before, ∀ kx, GetTabSortKeyWithinZone s x = some kx → kx ≤ kw)
    (hafter : ∀ x ∈ after, ∀ kx, GetTabSortKeyWithinZone s x = some kx → kw ≤ kx) :
    KeysNonDecreasing t (before ++ w :: after) := by
  have hne : ∀ x ∈ before ++ after, x ≠ w := fun x hx e => hw (e ▸ hx)
  obtain ⟨hall, hpair⟩ := hsorted
  obtain ⟨hpb, hpa, hcross⟩ := List.pairwise_append.mp hpair
  constructor
  · intro x hx
    rcases List.mem_append.mp hx with h | h
    · rw [hkeys x (hne x (List.mem_append_left _ h))]
      exact hall x (List.mem_append_left _ h)
    · rcases List.mem_cons.mp h with h | h
      · rw [h]; exact ⟨kw, hkw⟩
      · rw [hkeys x (hne x (List.mem_append_right _ h))]
        exact hall x (List.mem_append_right _ h)
  · refine List.pairwise_append.mpr ⟨?_, ?_, ?_⟩
    · refine List.Pairwise.imp_of_mem ?_ hpb
      intro a b ha hb hR ka kb hka hkb
      rw [hkeys a (hne a (List.mem_append_left _ ha))] at hka
      rw [hkeys b (hne b (List.mem_append_left _ hb))] at hkb
      exact hR ka kb hka hkb
    · refine List.pairwise_cons.mpr ⟨?_, ?_⟩
      · intro b hb ka kb hka hkb
        rw [hkw] at hka
        rw [hkeys b (hne b (List.mem_append_right _ hb))] at hkb
        rw [← Option.some.inj hka]
        exact hafter b hb kb hkb
      · refine List.Pairwise.imp_of_mem ?_ hpa
        intro a b ha hb hR ka kb hka hkb
        rw [hkeys a (hne a (List.mem_append_right _ ha))] at hka
        rw [hkeys b (hne b (List.mem_append_right _ hb))] at hkb
        exact hR ka kb hka hkb
    · intro a ha b hb ka kb hka hkb
      rw [hkeys a (hne a (List.mem_append_left _ ha))] at hka
      rcases List.mem_cons.mp hb with h | h
      · rw [h, hkw] at hkb
        rw [← Option.some.inj hkb]
        exact hbefore a ha ka hka
      · rw [hkeys b (hne b (List.mem_append_right _ h))] at hkb
        exact hcross a ha b h ka kb hka hkb

theorem InsertWindowIntoZone_keys_nondecreasing (s : State) (w : HWND) (key : Option Nat)
    (S : ZoneIndexSet) (hw : w ∉ s.group S) (hsorted : KeysNonDecreasing s (s.group S))
    (hfit : key = none → ∀ last p, (s.group S).getLast? = some last →
      GetTabSortKeyWithinZone s last = some p → p + 1 < 2 ^ 64) :
    KeysNonDecreasing (InsertWindowIntoZone s w key S)
      ((InsertWindowIntoZone s w key S).group S) := by
  cases key with
  | some k =>
    obtain ⟨before, after, hg, hnew, hbefore, hhead⟩ := InsertWindowIntoZone_split s w k S
    rw [hnew]
    rw [hg] at hw hsorted
    refine KeysNonDecreasing_insert s _ w k before after hw
      (fun x hx => InsertWindowIntoZone_key_of_ne s w x (some k) S hx)
      (InsertWindowIntoZone_key_some s w k S) hsorted ?_ ?_
    · intro x hx kx hkx
      have hp := hbefore x hx
      unfold predicate at hp
      rw [hkx] at hp
      simpa using hp
    · intro x hx kx hkx
      cases after with
      | nil => simp at hx
      | cons a rest =>
        have hp := hhead a rfl
        unfold predicate at hp
        obtain ⟨ka, hka⟩ := hsorted.1 a (by simp)
        rw [hka] at hp
        have hgt : k < ka := by simpa using hp
        rcases List.mem_cons.mp hx with h | h
        · rw [h, hka] at hkx
          have : ka = kx := Option.some.inj hkx
          omega
        · have hpa := (List.pairwise_append.mp hsorted.2).2.1
          have hle : ka ≤ kx := (List.pairwise_cons.mp hpa).1 x h ka kx hka hkx
          omega
  | none =>
    have hnew : (InsertWindowIntoZone s w none S).group S = s.group S ++ w :: [] :=
      group_assign s _ S _ (InsertWindowIntoZone_registry_none s w S)
    have hkw := InsertWindowIntoZone_key_none s w S
    rw [hnew]
    have hsorted' : KeysNonDecreasing s (s.group S ++ []) := by
      rw [List.append_nil]; exact hsorted
    refine KeysNonDecreasing_insert s _ w _ (s.group S) [] (by simpa using hw)
      (fun x hx => InsertWindowIntoZone_key_of_ne s w x none S hx) hkw hsorted' ?_ ?_
    · intro x hx kx hkx
      rcases List.eq_nil_or_concat (s.group S) with hnil | ⟨L, b, hL⟩
      · rw [hnil] at hx
        simp at hx
      · rw [List.concat_eq_append] at hL
        have hlast : (s.group S).getLast? = some b := by
          rw [hL]; exact List.getLast?_concat L
        obtain ⟨p, hp⟩ := hsorted.1 b (by rw [hL]; simp)
        have hfit' := hfit rfl b p hlast hp
        have hmod : (p + 1) % sizeModulus = p + 1 := Nat.mod_eq_of_lt hfit'
        simp only [hlast, hp, hmod]
        rw [hL] at hx
        rcases List.mem_append.mp hx with h | h
        · have hpair := hsorted.2
          rw [hL] at hpair
          have hle : kx ≤ p := (List.pairwise_append.mp hpair).2.2 x h b (by simp) kx p hkx hp
          exact Nat.le_succ_of_le hle
        · have hxb : x = b := by simpa using h
          rw [hxb, hp] at hkx
          have hpk : p = kx := Option.some.inj hkx
          rw [← hpk]
          exact Nat.le_succ p
    · intro x hx
      simp at hx

theorem InsertWindowIntoZone_inserts (s : State) (w : HWND) (key : Option Nat)
    (S : ZoneIndexSet) :
    ∃ before after, s.group S = before ++ after ∧
      (InsertWindowIntoZone s w key S).group S = before ++ w :: after := by
  cases key with
  | some k =>
    obtain ⟨before, after, hg, hnew, _, _⟩ := InsertWindowIntoZone_split s w k S
    exact ⟨before, after, hg, hnew⟩
  | none =>
    exact ⟨s.group S, [], by simp,
      group_assign s _ S _ (InsertWindowIntoZone_registry_none s w S)⟩

/-- Claim C20. For every group sequence in which every member has a persisted
sort key and the keys do not decrease along the tab order, and every window
`w` not in the group, `InsertWindowIntoZone(w, k, S)` with any optional key `k`
(when `k` is absent, provided 1 + the key of the last member fits in `size_t`)
yields a group that holds `w` and has a persisted key for it, that is the old
sequence with `w` put in at one place, and in which every member, `w`
included, has a persisted key and the keys still do not decrease along the tab
order. -/
theorem InsertWindowIntoZone_keeps_key_order (s : State) (w : HWND) (key : Option Nat)
    (S : ZoneIndexSet) (hw : w ∉ s.group S) (hsorted : KeysNonDecreasing s (s.group S))
    (hfit : key = none → ∀ last p, (s.group S).getLast? = some last →
      GetTabSortKeyWithinZone s last = some p → p + 1 < 2 ^ 64) :
    w ∈ (InsertWindowIntoZone s w key S).group S ∧
    (∃ kw, GetTabSortKeyWithinZone (InsertWindowIntoZone s w key S) w = some kw) ∧
    (∃ before after, s.group S = before ++ after ∧
      (InsertWindowIntoZone s w key S).group S = before ++ w :: after) ∧
    KeysNonDecreasing (InsertWindowIntoZone s w key S)
      ((InsertWindowIntoZone s w key S).group S) := by
  have hins := InsertWindowIntoZone_inserts s w key S
  have hmem : w ∈ (InsertWindowIntoZone s w key S).group S := by
    obtain ⟨before, after, _, hnew⟩ := hins
    rw [hnew]
    simp
  have hkeys := InsertWindowIntoZone_keys_nondecreasing s w key S hw hsorted hfit
  exact ⟨hmem, hkeys.1 w hmem, hins, hkeys⟩

theorem InsertWindowIntoZone_keeps_key_order_witness :
    (12 : HWND) ∉ sortedGroupState.group [0] ∧
    KeysNonDecreasing sortedGroupState (sortedGroupState.group [0]) ∧
    (InsertWindowIntoZone sortedGroupState 12 (some 5) [0]).group [0] = [10, 11, 12, 13] ∧
    (12 : HWND) ∈ (InsertWindowIntoZone sortedGroupState 12 (some 5) [0]).group [0] ∧
    KeysNonDecreasing (InsertWindowIntoZone sortedGroupState 12 (some 5) [0])
      ((InsertWindowIntoZone sortedGroupState 12 (some 5) [0]).group [0]) ∧
    (InsertWindowIntoZone sortedGroupState 12 none [0]).group [0] = [10, 11, 13, 12] ∧
    GetTabSortKeyWithinZone (InsertWindowIntoZone sortedGroupState 12 none [0]) 12 = some 8 ∧
    (12 : HWND) ∈ (InsertWindowIntoZone sortedGroupState 12 none [0]).group [0] ∧
    KeysNonDecreasing (InsertWindowIntoZone sortedGroupState 12 none [0])
      ((InsertWindowIntoZone sortedGroupState 12 none [0]).group [0]) :=
  have hs : KeysNonDecreasing sortedGroupState (sortedGroupState.group [0]) := by
    have hg : sortedGroupState.group [0] = [10, 11, 13] := by decide
    rw [hg]
    constructor
    · intro t ht
      simp only [List.mem_cons, List.mem_singleton, List.not_mem_nil, or_false] at ht
      rcases ht with h | h | h
      · exact ⟨1, by rw [h]; decide⟩
      · exact ⟨5, by rw [h]; decide⟩
      · exact ⟨7, by rw [h]; decide⟩
    · have h10 : GetTabSortKeyWithinZone sortedGroupState 10 = some 1 := by decide
      have h11 : GetTabSortKeyWithinZone sortedGroupState 11 = some 5 := by decide
      have h13 : GetTabSortKeyWithinZone sortedGroupState 13 = some 7 := by decide
      simp [h10, h11, h13]
  have hfit : (none : Option Nat) = none → ∀ last p,
      (sortedGroupState.group [0]).getLast? = some last →
      GetTabSortKeyWithinZone sortedGroupState last = some p → p + 1 < 2 ^ 64 := by
    intro _ last p hl hp
    have hlast : (sortedGroupState.group [0]).getLast? = some 13 := by decide
    rw [hlast] at hl
    have hl' : (13 : HWND) = last := Option.some.inj hl
    rw [← hl'] at hp
    have h13 : GetTabSortKeyWithinZone sortedGroupState 13 = some 7 := by decide
    rw [h13] at hp
    have hp' : 7 = p := Option.some.inj hp
    rw [← hp']
    decide
  have hkeyed := InsertWindowIntoZone_keeps_key_order sortedGroupState 12 (some 5) [0]
    (by decide) hs (fun h => Option.noConfusion h)
  have habsent := InsertWindowIntoZone_keeps_key_order sortedGroupState 12 none [0]
    (by decide) hs hfit
  ⟨by decide, hs, by decide, hkeyed.1, hkeyed.2.2.2, by decide, by decide, habsent.1,
    habsent.2.2.2⟩

/-! ## The cyclic order of a group -/

theorem indexOf_split (pre post : List HWND) (a : HWND) (ha : a ∉ pre) :
    (pre ++ a :: post).indexOf a = pre.length := by
  rw [List.indexOf_append_of_not_mem ha, List.indexOf_cons_self]
  rfl

theorem cycleCandidates_split (pre post : List HWND) (a : HWND) (reverse : Bool)
    (ha : a ∉ pre) :
    cycleCandidates (pre ++ a :: post) a reverse =
      if reverse then pre.reverse ++ (post.reverse ++ [a]) else post ++ (pre ++ [a]) := by
  unfold cycleCandidates
  rw [indexOf_split pre post a ha]
  cases reverse
  · simp only [Bool.false_eq_true, if_false]
    have h1 : (pre ++ a :: post).drop (pre.length + 1) = post := by
      rw [show pre ++ a :: post = (pre ++ [a]) ++ post by simp]
      rw [List.drop_append_of_le_length (by simp)]
      simp
    have h2 : (pre ++ a :: post).take (pre.length + 1) = pre ++ [a] := by
      rw [show pre ++ a :: post = (pre ++ [a]) ++ post by simp]
      rw [List.take_append_of_le_length (by simp)]
      simp
    rw [h1, h2]
  · simp only [if_true]
    rw [List.take_left', List.drop_left']
    · simp
    · rfl
    · rfl

theorem nextInVector_split (pre post : List HWND) (a : HWND) (reverse : Bool)
    (ha : a ∉ pre) :
    nextInVector (pre ++ a :: post) a reverse =
      (cycleCandidates (pre ++ a :: post) a reverse).headD 0 := by
  rw [cycleCandidates_split pre post a reverse ha]
  unfold nextInVector
  rw [indexOf_split pre post a ha]
  cases reverse
  · simp only [Bool.not_false, if_true, Bool.false_eq_true, if_false]
    cases post with
    | nil =>
      simp only [List.length_append, List.length_cons, List.length_nil, if_true, List.nil_append]
    | cons p post' =>
      have hne : ¬ pre.length + 1 = (pre ++ a :: p :: post').length := by
        simp
      simp only [hne, if_false]
      rw [show pre ++ a :: p :: post' = (pre ++ [a]) ++ p :: post' by simp]
      rw [List.getD_append_right _ _ _ _ (by simp)]
      simp
  · simp only [Bool.not_true, Bool.false_eq_true, if_false, if_true]
    rcases List.eq_nil_or_concat pre with hp | ⟨pre', c, hp⟩
    · subst hp
      simp only [List.length_nil, if_true, List.nil_append, List.reverse_nil]
      rcases List.eq_nil_or_concat post with hq | ⟨post', c, hq⟩
      · subst hq; simp
      · rw [List.concat_eq_append] at hq
        subst hq
        rw [show a :: (post' ++ [c]) = (a :: post') ++ [c] by simp, List.getLastD_concat]
        simp
    · rw [List.concat_eq_append] at hp
      subst hp
      have hne : ¬ (pre' ++ [c]).length = 0 := by simp
      simp only [hne, if_false]
      rw [List.getD_append _ _ _ _ (by simp)]
      simp [List.getD_append_right]

theorem cycleCandidates_head (g : List HWND) (a : HWND) (reverse : Bool) (hnodup : g.Nodup)
    (ha : a ∈ g) :
    ∃ c rest, cycleCandidates g a reverse = c :: rest ∧ nextInVector g a reverse = c ∧ c ∈ g ∧
      (rest = [] → g = [a] ∧ c = a) ∧
      (rest ≠ [] → c ≠ a ∧ cycleCandidates (g.erase c) a reverse = rest) := by
  obtain ⟨pre, post, hg⟩ := List.append_of_mem ha
  subst hg
  have hnd := List.nodup_append.mp hnodup
  have hapre : a ∉ pre := fun h => hnd.2.2 h (by simp)
  have hnd2 := List.nodup_cons.mp hnd.2.1
  have hapost : a ∉ post := hnd2.1
  have hnext := nextInVector_split pre post a reverse hapre
  have hsplit := cycleCandidates_split pre post a reverse hapre
  cases reverse
  · simp only [Bool.false_eq_true, if_false] at hsplit
    cases post with
    | cons p post' =>
      have hpa : p ≠ a := fun e => hapost (by simp [e])
      have hppre : p ∉ pre := fun h => hnd.2.2 h (by simp)
      refine ⟨p, post' ++ (pre ++ [a]), by rw [hsplit]; rfl, ?_, by simp, ?_, ?_⟩
      · rw [hnext, hsplit]; rfl
      · intro h; simp at h
      · intro _
        refine ⟨hpa, ?_⟩
        rw [List.erase_append_right _ hppre, List.erase_cons_tail (by simpa using hpa.symm),
          List.erase_cons_head]
        rw [cycleCandidates_split pre post' a false hapre]
        simp
    | nil =>
      cases pre with
      | nil =>
        refine ⟨a, [], by rw [hsplit]; rfl, ?_, by simp, ?_, ?_⟩
        · rw [hnext, hsplit]; rfl
        · intro _; exact ⟨rfl, rfl⟩
        · intro h; exact absurd rfl h
      | cons q pre' =>
        have hqa : q ≠ a := fun e => hapre (by simp [e])
        have hapre' : a ∉ pre' := fun h => hapre (by simp [h])
        refine ⟨q, pre' ++ [a], by rw [hsplit]; rfl, ?_, by simp, ?_, ?_⟩
        · rw [hnext, hsplit]; rfl
        · intro h; simp at h
        · intro _
          refine ⟨hqa, ?_⟩
          rw [List.cons_append, List.erase_cons_head]
          rw [cycleCandidates_split pre' [] a false hapre']
          simp
  · simp only [if_true] at hsplit
    rcases List.eq_nil_or_concat pre with hp | ⟨pre', q, hp⟩
    · subst hp
      rcases List.eq_nil_or_concat post with hq | ⟨post', q, hq⟩
      · subst hq
        refine ⟨a, [], by rw [hsplit]; rfl, ?_, by simp, ?_, ?_⟩
        · rw [hnext, hsplit]; rfl
        · intro _; exact ⟨rfl, rfl⟩
        · intro h; exact absurd rfl h
      · rw [List.concat_eq_append] at hq
        subst hq
        have hqa : q ≠ a := fun e => hapost (by simp [e])
        have hnd3 := List.nodup_append.mp hnd2.2
        have hqpost : q ∉ post' := fun h => hnd3.2.2 h (by simp)
        have hapost' : a ∉ post' := fun h => hapost (by simp [h])
        refine ⟨q, post'.reverse ++ [a], by rw [hsplit]; simp, ?_, by simp, ?_, ?_⟩
        · rw [hnext, hsplit]; simp
        · intro h; simp at h
        · intro _
          refine ⟨hqa, ?_⟩
          rw [List.nil_append, List.erase_cons_tail (by simpa using hqa.symm),
            List.erase_append_right _ hqpost, List.erase_cons_head, List.append_nil]
          have := cycleCandidates_split [] post' a true (by simp)
          simpa using this
    · rw [List.concat_eq_append] at hp
      subst hp
      have hnd3 := List.nodup_append.mp hnd.1
      have hqpre : q ∉ pre' := fun h => hnd3.2.2 h (by simp)
      have hqa : q ≠ a := fun e => hapre (by simp [e])
      have hapre' : a ∉ pre' := fun h => hapre (by simp [h])
      refine ⟨q, pre'.reverse ++ (post.reverse ++ [a]), by rw [hsplit]; simp, ?_, by simp, ?_, ?_⟩
      · rw [hnext, hsplit]; simp
      · intro h; simp at h
      · intro _
        refine ⟨hqa, ?_⟩
        rw [List.append_assoc, List.erase_append_right _ hqpre]
        rw [show [q] ++ a :: post = q :: a :: post by rfl, List.erase_cons_head]
        rw [cycleCandidates_split pre' post a true hapre']
        simp

theorem cycleCandidates_length (g : List HWND) (a : HWND) (reverse : Bool) :
    (cycleCandidates g a reverse).length = g.length := by
  unfold cycleCandidates
  cases reverse
  · simp only [Bool.false_eq_true, if_false, List.length_append, List.length_drop,
      List.length_take]
    omega
  · simp only [if_true, List.length_append, List.length_reverse, List.length_drop,
      List.length_take]
    omega

theorem cycleCandidates_perm (g : List HWND) (a : HWND) (reverse : Bool) :
    List.Perm (cycleCandidates g a reverse) g := by
  unfold cycleCandidates
  cases reverse
  · simp only [Bool.false_eq_true, if_false]
    exact (List.perm_append_comm).trans (by rw [List.take_append_drop])
  · simp only [if_true]
    have h1 : List.Perm ((g.take (g.indexOf a)).reverse ++ (g.drop (g.indexOf a)).reverse)
        (g.take (g.indexOf a) ++ g.drop (g.indexOf a)) :=
      List.Perm.append (List.reverse_perm _) (List.reverse_perm _)
    rw [List.take_append_drop] at h1
    exact h1

/-! ## Cycling ends -/

theorem getD_zero_or_mem (l : List HWND) (i : Nat) : l.getD i 0 = 0 ∨ l.getD i 0 ∈ l := by
  by_cases h : i < l.length
  · right
    rw [List.getD_eq_getElem l 0 h]
    exact List.getElem_mem h
  · left
    exact List.getD_eq_default l 0 (by omega)

theorem nextInVector_zero_or_mem (g : List HWND) (a : HWND) (reverse : Bool) :
    nextInVector g a reverse = 0 ∨ nextInVector g a reverse ∈ g := by
  unfold nextInVector
  cases reverse
  · simp only [Bool.not_false, if_true]
    split
    · cases g with
      | nil => exact Or.inl rfl
      | cons x l => right; simp
    · exact getD_zero_or_mem g _
  · simp only [Bool.not_true, Bool.false_eq_true, if_false]
    split
    · rcases List.eq_nil_or_concat g with h | ⟨l, x, h⟩
      · rw [h]; exact Or.inl rfl
      · rw [List.concat_eq_append] at h
        rw [h, List.getLastD_concat]
        right; simp
    · exact getD_zero_or_mem g _

theorem GetNextZoneWindow_zero_or_mem (s : State) (S : ZoneIndexSet) (a : HWND)
    (reverse : Bool) :
    (GetNextZoneWindow s S a reverse).1 = 0 ∨ (GetNextZoneWindow s S a reverse).1 ∈ s.group S := by
  cases hf : s.m_windowsByIndexSets.find S with
  | none => exact Or.inl (GetNextZoneWindow_fst_of_find_none s S a reverse hf)
  | some g =>
    rw [GetNextZoneWindow_fst_of_find s S g a reverse hf]
    have hg : s.group S = g := value_eq_of_find _ _ _ _ hf
    rw [hg]
    split
    · exact Or.inl rfl
    · exact nextInVector_zero_or_mem g a reverse

theorem CycleWindowsLoop_succ (IsWindow IsWindowOnCurrentDesktop : HWND → Bool)
    (S : ZoneIndexSet) (a : HWND) (reverse : Bool) (fuel : Nat) (s : State)
    (dismissed : List HWND) :
    CycleWindowsLoop IsWindow IsWindowOnCurrentDesktop S a reverse (fuel + 1) s dismissed =
      if (GetNextZoneWindow s S a reverse).1 = 0 then some ⟨s, dismissed, none⟩
      else if !IsWindow (GetNextZoneWindow s S a reverse).1 then
        CycleWindowsLoop IsWindow IsWindowOnCurrentDesktop S a reverse fuel
          (Dismiss s (GetNextZoneWindow s S a reverse).1)
          (dismissed ++ [(GetNextZoneWindow s S a reverse).1])
      else if IsWindowOnCurrentDesktop (GetNextZoneWindow s S a reverse).1 then
        some ⟨s, dismissed, some (GetNextZoneWindow s S a reverse).1⟩
      else some ⟨s, dismissed, none⟩ := by
  have hst := GetNextZoneWindow_state s S a reverse
  rw [CycleWindowsLoop]
  cases hnext : GetNextZoneWindow s S a reverse with
  | mk next s1 =>
    rw [hnext] at hst
    simp only at hst
    subst hst
    rfl

theorem Dismiss_member (s : State) (S : ZoneIndexSet) (c : HWND) (hc : Consistent s)
    (hS : S ≠ []) (hmem : c ∈ s.group S) :
    (Dismiss s c).group S = (s.group S).erase c ∧
    (∀ S', S' ≠ S → (Dismiss s c).group S' = s.group S') := by
  have hf := hc.tracked S hS c hmem
  constructor
  · rw [Dismiss_group_of_tracked s c S S hf]
    simp
  · intro S' hne
    rw [Dismiss_group_of_tracked s c S S' hf]
    simp [Ne.symm hne]

theorem CycleWindowsLoop_terminates (IsWindow IsWindowOnCurrentDesktop : HWND → Bool)
    (S : ZoneIndexSet) (a : HWND) (reverse : Bool) (hS : S ≠ []) (n : Nat) :
    ∀ (s : State) (d : List HWND), Consistent s → (s.group S).length ≤ n →
      ∃ r, r.dismissed.length ≤ d.length + n ∧
        ∀ fuel, n + 1 ≤ fuel →
          CycleWindowsLoop IsWindow IsWindowOnCurrentDesktop S a reverse fuel s d = some r := by
  induction n with
  | zero =>
    intro s d _ hlen
    have hnil : s.group S = [] := List.length_eq_zero.mp (Nat.le_zero.mp hlen)
    have h0 : (GetNextZoneWindow s S a reverse).1 = 0 := by
      rcases GetNextZoneWindow_zero_or_mem s S a reverse with h | h
      · exact h
      · rw [hnil] at h
        simp at h
    refine ⟨⟨s, d, none⟩, by simp, ?_⟩
    intro fuel hfuel
    obtain ⟨f, rfl⟩ : ∃ f, fuel = f + 1 := ⟨fuel - 1, by omega⟩
    rw [CycleWindowsLoop_succ]
    simp [h0]
  | succ m ih =>
    intro s d hc hlen
    by_cases h0 : (GetNextZoneWindow s S a reverse).1 = 0
    · refine ⟨⟨s, d, none⟩, by simp, ?_⟩
      intro fuel hfuel
      obtain ⟨f, rfl⟩ : ∃ f, fuel = f + 1 := ⟨fuel - 1, by omega⟩
      rw [CycleWindowsLoop_succ]
      simp [h0]
    · by_cases hlive : IsWindow (GetNextZoneWindow s S a reverse).1 = true
      · refine ⟨if IsWindowOnCurrentDesktop (GetNextZoneWindow s S a reverse).1 = true
            then ⟨s, d, some (GetNextZoneWindow s S a reverse).1⟩ else ⟨s, d, none⟩, ?_, ?_⟩
        · split <;> simp
        · intro fuel hfuel
          obtain ⟨f, rfl⟩ : ∃ f, fuel = f + 1 := ⟨fuel - 1, by omega⟩
          rw [CycleWindowsLoop_succ]
          simp only [h0, hlive, if_false, Bool.not_true, Bool.false_eq_true]
          split <;> rfl
      · have hmem : (GetNextZoneWindow s S a reverse).1 ∈ s.group S := by
          rcases GetNextZoneWindow_zero_or_mem s S a reverse with h | h
          · exact absurd h h0
          · exact h
        have hgroup := (Dismiss_member s S _ hc hS hmem).1
        have hlen' : ((Dismiss s (GetNextZoneWindow s S a reverse).1).group S).length ≤ m := by
          rw [hgroup, List.length_erase_of_mem hmem]
          omega
        obtain ⟨r, hr1, hr2⟩ := ih (Dismiss s (GetNextZoneWindow s S a reverse).1)
          (d ++ [(GetNextZoneWindow s S a reverse).1]) (Consistent_Dismiss s _ hc) hlen'
        refine ⟨r, ?_, ?_⟩
        · rw [List.length_append, List.length_singleton] at hr1
          omega
        · intro fuel hfuel
          obtain ⟨f, rfl⟩ : ∃ f, fuel = f + 1 := ⟨fuel - 1, by omega⟩
          rw [CycleWindowsLoop_succ]
          simp only [h0, hlive, if_false, Bool.not_false, if_true]
          exact hr2 f (by omega)

/-- Claim C12. In every state reached by public operations, for every window,
direction, liveness predicate (also one under which no window is live) and
desktop predicate, `CycleWindows(window, reverse)` ends: with fuel for one turn
more than the size of the anchor's group at entry the loop returns, any larger
fuel gives the same result, and the number of `Dismiss` calls it makes is at
most the size of that group. -/
theorem CycleWindows_terminates (s : State) (h : Reachable s)
    (IsWindow IsWindowOnCurrentDesktop : HWND → Bool) (window : HWND) (reverse : Bool) :
    ∃ r, r.dismissed.length ≤ (s.group (GetZoneIndexSetFromWindow s window)).length ∧
      ∀ fuel, (s.group (GetZoneIndexSetFromWindow s window)).length + 1 ≤ fuel →
        CycleWindows IsWindow IsWindowOnCurrentDesktop fuel s window reverse = some r := by
  have hc := Consistent_of_Reachable s h
  by_cases hS : GetZoneIndexSetFromWindow s window = []
  · refine ⟨⟨s, [], none⟩, by simp, ?_⟩
    intro fuel _
    unfold CycleWindows
    simp [hS]
  · obtain ⟨r, hr1, hr2⟩ := CycleWindowsLoop_terminates IsWindow IsWindowOnCurrentDesktop
      (GetZoneIndexSetFromWindow s window) window reverse hS
      (s.group (GetZoneIndexSetFromWindow s window)).length s [] hc (Nat.le_refl _)
    refine ⟨r, by simpa using hr1, ?_⟩
    intro fuel hfuel
    unfold CycleWindows
    have hne : (GetZoneIndexSetFromWindow s window).isEmpty = false := by
      cases hz : GetZoneIndexSetFromWindow s window with
      | nil => exact absurd hz hS
      | cons x l => rfl
    simp only [hne, Bool.false_eq_true, if_false]
    exact hr2 fuel hfuel

theorem CycleWindows_terminates_witness :
    Reachable threeTabsState ∧
    ∃ r, r.dismissed.length ≤ (threeTabsState.group (GetZoneIndexSetFromWindow threeTabsState 1)).length ∧
      ∀ fuel, (threeTabsState.group (GetZoneIndexSetFromWindow threeTabsState 1)).length + 1 ≤ fuel →
        CycleWindows (fun _ => false) (fun _ => true) fuel threeTabsState 1 false = some r :=
  have hr : Reachable threeTabsState :=
    Reachable.step
      (Reachable.step (Reachable.step (Reachable.init _) (PublicStep.assign 1 [0]))
        (PublicStep.assign 2 [0]))
      (PublicStep.assign 3 [0])
  ⟨hr, CycleWindows_terminates threeTabsState hr (fun _ => false) (fun _ => true) 1 false⟩

/-! ## The outcome of cycling -/

theorem foldl_Dismiss_index (ds : List HWND) :
    ∀ (s : State) (x : HWND), (ds.foldl Dismiss s).m_windowIndexSet.find x =
      if x ∈ ds then none else s.m_windowIndexSet.find x := by
  induction ds with
  | nil => intro s x; simp
  | cons c rest ih =>
    intro s x
    rw [List.foldl_cons, ih, Dismiss_find_index]
    by_cases h1 : x ∈ rest
    · simp [h1]
    · by_cases h2 : c = x
      · simp [h2]
      · have h2' : ¬ x = c := fun e => h2 e.symm
        simp [h1, h2, h2']

theorem foldl_Dismiss_key (ds : List HWND) :
    ∀ (s : State) (x : HWND), GetTabSortKeyWithinZone (ds.foldl Dismiss s) x =
      if x ∈ ds then none else GetTabSortKeyWithinZone s x := by
  induction ds with
  | nil => intro s x; simp
  | cons c rest ih =>
    intro s x
    rw [List.foldl_cons, ih]
    unfold GetTabSortKeyWithinZone
    rw [Dismiss_tabSortKey]
    by_cases h1 : x ∈ rest
    · simp [h1]
    · by_cases h2 : x = c
      · simp [h2]
      · simp [h1, h2]

theorem foldl_Dismiss_group (S : ZoneIndexSet) (hS : S ≠ []) (ds : List HWND) :
    ∀ (s : State), Consistent s → ds.Nodup → (∀ x ∈ ds, x ∈ s.group S) →
      ∀ S', (ds.foldl Dismiss s).group S' =
        if S' = S then (s.group S).filter (fun x => !decide (x ∈ ds)) else s.group S' := by
  induction ds with
  | nil =>
    intro s _ _ _ S'
    by_cases h : S' = S <;> simp [h]
  | cons c rest ih =>
    intro s hc hnodup hmem S'
    have hcmem : c ∈ s.group S := hmem c (by simp)
    obtain ⟨hg1, hg2⟩ := Dismiss_member s S c hc hS hcmem
    have hnd := List.nodup_cons.mp hnodup
    have hmem' : ∀ x ∈ rest, x ∈ (Dismiss s c).group S := by
      intro x hx
      rw [hg1]
      have hxc : x ≠ c := fun e => hnd.1 (e ▸ hx)
      exact (List.mem_erase_of_ne hxc).mpr (hmem x (by simp [hx]))
    rw [List.foldl_cons, ih (Dismiss s c) (Consistent_Dismiss s c hc) hnd.2 hmem' S']
    by_cases h : S' = S
    · simp only [h, if_true, hg1]
      rw [List.Nodup.erase_eq_filter (hc.nodup S hS) c, List.filter_filter]
      apply List.filter_congr
      intro x _
      by_cases hxc : x = c
      · simp [hxc]
      · simp [hxc]
    · simp only [h, if_false]
      exact hg2 S' h

theorem CycleWindowsLoop_outcome (IsWindow IsWindowOnCurrentDesktop : HWND → Bool)
    (S : ZoneIndexSet) (a : HWND) (reverse : Bool) (hS : S ≠ []) (n : Nat) :
    ∀ (s : State) (d : List HWND), Consistent s → s.m_windowIndexSet.find a = some S →
      0 ∉ s.group S → (s.group S).length ≤ n →
      ∃ r, (∀ fuel, n + 1 ≤ fuel →
          CycleWindowsLoop IsWindow IsWindowOnCurrentDesktop S a reverse fuel s d = some r) ∧
        r.dismissed =
          d ++ (cycleCandidates (s.group S) a reverse).takeWhile (fun c => !IsWindow c) ∧
        r.activated =
          ((cycleCandidates (s.group S) a reverse).dropWhile (fun c => !IsWindow c)).head?.filter
            IsWindowOnCurrentDesktop ∧
        r.state =
          ((cycleCandidates (s.group S) a reverse).takeWhile (fun c => !IsWindow c)).foldl
            Dismiss s := by
  induction n with
  | zero =>
    intro s d hc hf _ hlen
    have hmem := (hc.indexed a S hf).2
    have hnil : s.group S = [] := List.length_eq_zero.mp (Nat.le_zero.mp hlen)
    rw [hnil] at hmem
    simp at hmem
  | succ m ih =>
    intro s d hc hf hnull hlen
    have hamem := (hc.indexed a S hf).2
    have hnodup := hc.nodup S hS
    obtain ⟨c, rest, hcands, hnext, hcmem, hlast, hmore⟩ :=
      cycleCandidates_head (s.group S) a reverse hnodup hamem
    have hfind : s.m_windowsByIndexSets.find S = some (s.group S) :=
      find_of_group_ne_nil s S (fun e => by rw [e] at hamem; simp at hamem)
    have hne : (s.group S).isEmpty = false := by
      cases hg : s.group S with
      | nil => rw [hg] at hamem; simp at hamem
      | cons x l => rfl
    have hnx : (GetNextZoneWindow s S a reverse).1 = c := by
      rw [GetNextZoneWindow_fst_of_find s S _ a reverse hfind]
      simp only [hne, Bool.false_eq_true, if_false]
      exact hnext
    have hc0 : c ≠ 0 := fun e => hnull (e ▸ hcmem)
    rw [hcands]
    by_cases hlive : IsWindow c = true
    · refine ⟨⟨s, d, if IsWindowOnCurrentDesktop c = true then some c else none⟩, ?_, ?_, ?_, ?_⟩
      · intro fuel hfuel
        obtain ⟨f, rfl⟩ : ∃ f, fuel = f + 1 := ⟨fuel - 1, by omega⟩
        rw [CycleWindowsLoop_succ, hnx]
        simp only [hc0, hlive, if_false, Bool.not_true, Bool.false_eq_true]
        split <;> rfl
      · simp [List.takeWhile_cons, hlive]
      · simp only [List.dropWhile_cons, hlive, Bool.not_true, Bool.false_eq_true, if_false,
          List.head?_cons, Option.filter]
      · simp [List.takeWhile_cons, hlive]
    · have hlive' : IsWindow c = false := by simpa using hlive
      obtain ⟨hg1, _⟩ := Dismiss_member s S c hc hS hcmem
      have hc' := Consistent_Dismiss s c hc
      have htake : (c :: rest).takeWhile (fun c => !IsWindow c)
          = c :: rest.takeWhile (fun c => !IsWindow c) := by
        simp [List.takeWhile_cons, hlive']
      have hdrop : (c :: rest).dropWhile (fun c => !IsWindow c)
          = rest.dropWhile (fun c => !IsWindow c) := by
        simp [List.dropWhile_cons, hlive']
      rw [htake, hdrop]
      by_cases hrest : rest = []
      · obtain ⟨hga, hca⟩ := hlast hrest
        have hnil : (Dismiss s c).group S = [] := by
          rw [hg1, hga, hca]
          simp
        have h0 : (GetNextZoneWindow (Dismiss s c) S a reverse).1 = 0 := by
          rcases GetNextZoneWindow_zero_or_mem (Dismiss s c) S a reverse with h | h
          · exact h
          · rw [hnil] at h
            simp at h
        subst hrest
        refine ⟨⟨Dismiss s c, d ++ [c], none⟩, ?_, by simp, by simp, by simp⟩
        intro fuel hfuel
        obtain ⟨f, rfl⟩ : ∃ f, fuel = f + 1 := ⟨fuel - 1, by omega⟩
        obtain ⟨f', rfl⟩ : ∃ f', f = f' + 1 := ⟨f - 1, by omega⟩
        rw [CycleWindowsLoop_succ, hnx]
        simp only [hc0, hlive', if_false, Bool.not_false, if_true]
        rw [CycleWindowsLoop_succ]
        simp [h0]
      · obtain ⟨hca, hcands'⟩ := hmore hrest
        have hf' : (Dismiss s c).m_windowIndexSet.find a = some S := by
          rw [Dismiss_find_index]
          simp [hca, hf]
        have hnull' : 0 ∉ (Dismiss s c).group S := by
          rw [hg1]
          exact fun h => hnull (List.mem_of_mem_erase h)
        have hlen' : ((Dismiss s c).group S).length ≤ m := by
          rw [hg1, List.length_erase_of_mem hcmem]
          omega
        obtain ⟨r, hr1, hr2, hr3, hr4⟩ := ih (Dismiss s c) (d ++ [c]) hc' hf' hnull' hlen'
        rw [hg1, hcands'] at hr2 hr3 hr4
        refine ⟨r, ?_, ?_, hr3, ?_⟩
        · intro fuel hfuel
          obtain ⟨f, rfl⟩ : ∃ f, fuel = f + 1 := ⟨fuel - 1, by omega⟩
          rw [CycleWindowsLoop_succ, hnx]
          simp only [hc0, hlive', if_false, Bool.not_false, if_true]
          exact hr1 f (by omega)
        · rw [hr2]
          simp
        · rw [hr4]
          rfl

/-- Counterexample to claim C13 as stated. After `Assign(1, {0})` and
`Assign(nullptr, {0})` the group of `[0]` is `[1, 0]`. With no window live,
`CycleWindows(1, forward)` gets the null handle as next candidate and takes it
for "no window": it stops at once, dismisses no member of the group and leaves
both maps as they were, with any fuel. -/
theorem CycleWindows_stops_at_null_handle :
    Reachable nullTabState ∧
    nullTabState.group [0] = [1, 0] ∧
    GetZoneIndexSetFromWindow nullTabState 1 = [0] ∧
    ∀ fuel, (CycleWindows (fun _ => false) (fun _ => true) (fuel + 1) nullTabState 1 false).map
        CycleResult.observe
      = some ([], none, nullTabState.m_windowIndexSet, nullTabState.m_windowsByIndexSets) := by
  refine ⟨Reachable.step (Reachable.step (Reachable.init _) (PublicStep.assign 1 [0]))
    (PublicStep.assign 0 [0]), by decide, by decide, ?_⟩
  intro fuel
  have hz : GetZoneIndexSetFromWindow nullTabState 1 = [0] := by decide
  have hn : (GetNextZoneWindow nullTabState [0] 1 false).1 = 0 := by decide
  unfold CycleWindows
  simp only [hz, List.isEmpty_cons, Bool.false_eq_true, if_false]
  rw [CycleWindowsLoop_succ]
  simp only [hn, if_true, Option.map_some', CycleResult.observe]

/-- Claim C13, amended. In every state reached by public operations, for every
tracked anchor window `a` whose group `g` does not hold the null handle, every
direction, liveness predicate and desktop predicate: let `c1, ..., cn` be the
members of `g` in cyclic order in the chosen direction, starting just after `a`
and ending with `a`. `CycleWindows(a, reverse)` ends and dismisses exactly the
candidates before the first live one (all of them when none is live), which
removes them from `m_windowIndexSet` and from the group and clears their keys;
the entries and keys of all other windows, the order of the remaining members
of `g` and all other groups are unchanged; it activates the first live
candidate exactly when that one is on the current desktop, and no other window.
When `a` is not tracked the state is unchanged and nothing is activated. -/
theorem CycleWindows_outcome (s : State) (h : Reachable s)
    (IsWindow IsWindowOnCurrentDesktop : HWND → Bool) (a : HWND) (reverse : Bool) :
    (∀ S, s.m_windowIndexSet.find a = some S → 0 ∉ s.group S →
      ∃ r, (∀ fuel, (s.group S).length + 1 ≤ fuel →
          CycleWindows IsWindow IsWindowOnCurrentDesktop fuel s a reverse = some r) ∧
        r.dismissed = (cycleCandidates (s.group S) a reverse).takeWhile (fun c => !IsWindow c) ∧
        r.activated =
          ((cycleCandidates (s.group S) a reverse).dropWhile (fun c => !IsWindow c)).head?.filter
            IsWindowOnCurrentDesktop ∧
        r.state = r.dismissed.foldl Dismiss s ∧
        (∀ x, r.state.m_windowIndexSet.find x =
          if x ∈ r.dismissed then none else s.m_windowIndexSet.find x) ∧
        (∀ x, GetTabSortKeyWithinZone r.state x =
          if x ∈ r.dismissed then none else GetTabSortKeyWithinZone s x) ∧
        (∀ S', r.state.group S' =
          if S' = S then (s.group S).filter (fun x => !decide (x ∈ r.dismissed))
          else s.group S')) ∧
    (s.m_windowIndexSet.find a = none →
      ∀ fuel, CycleWindows IsWindow IsWindowOnCurrentDesktop fuel s a reverse
        = some ⟨s, [], none⟩) := by
  have hc := Consistent_of_Reachable s h
  constructor
  · intro S hf hnull
    have hS : S ≠ [] := (hc.indexed a S hf).1
    have hz : GetZoneIndexSetFromWindow s a = S := by
      unfold GetZoneIndexSetFromWindow
      rw [hf]
    obtain ⟨r, hr1, hr2, hr3, hr4⟩ := CycleWindowsLoop_outcome IsWindow
      IsWindowOnCurrentDesktop S a reverse hS (s.group S).length s [] hc hf hnull (Nat.le_refl _)
    rw [List.nil_append] at hr2
    have hsub : List.Sublist r.dismissed (cycleCandidates (s.group S) a reverse) := by
      rw [hr2]; exact List.takeWhile_sublist _
    have hperm := cycleCandidates_perm (s.group S) a reverse
    have hnodup : r.dismissed.Nodup :=
      List.Nodup.sublist hsub ((List.Perm.nodup_iff hperm).mpr (hc.nodup S hS))
    have hmem : ∀ x ∈ r.dismissed, x ∈ s.group S :=
      fun x hx => (List.Perm.mem_iff hperm).mp (List.Sublist.subset hsub hx)
    have hstate : r.state = r.dismissed.foldl Dismiss s := by rw [hr4, hr2]
    refine ⟨r, ?_, hr2, hr3, hstate, ?_, ?_, ?_⟩
    · intro fuel hfuel
      unfold CycleWindows
      have hne : S.isEmpty = false := by
        cases hS' : S with
        | nil => exact absurd hS' hS
        | cons x l => rfl
      simp only [hz, hne, Bool.false_eq_true, if_false]
      exact hr1 fuel hfuel
    · intro x
      rw [hstate]
      exact foldl_Dismiss_index r.dismissed s x
    · intro x
      rw [hstate]
      exact foldl_Dismiss_key r.dismissed s x
    · intro S'
      rw [hstate]
      exact foldl_Dismiss_group S hS r.dismissed s hc hnodup hmem S'
  · intro hf fuel
    unfold CycleWindows GetZoneIndexSetFromWindow
    simp [hf]

theorem CycleWindows_outcome_witness :
    Reachable threeTabsState ∧
    ∃ r, CycleWindows (fun w => decide (w = 3)) (fun _ => true) 4 threeTabsState 1 false = some r ∧
      r.dismissed = [2] ∧ r.activated = some 3 ∧
      r.state.m_windowIndexSet.find 2 = none ∧ r.state.group [0] = [1, 3] :=
  have hr : Reachable threeTabsState :=
    Reachable.step
      (Reachable.step (Reachable.step (Reachable.init _) (PublicStep.assign 1 [0]))
        (PublicStep.assign 2 [0]))
      (PublicStep.assign 3 [0])
  have h := (CycleWindows_outcome threeTabsState hr (fun w => decide (w = 3)) (fun _ => true) 1
    false).1 [0] (by decide) (by decide)
  match h with
  | ⟨r, h1, h2, h3, _, h5, _, h7⟩ =>
    ⟨hr, r, h1 4 (by decide), h2.trans (by decide), h3.trans (by decide),
      (h5 2).trans (by rw [h2]; decide), (h7 [0]).trans (by rw [h2]; decide)⟩

/-! ## The anchor stays in its group while cycling goes on -/

/-- In a consistent state with a tracked anchor, dismissing the candidate that
`GetNextZoneWindow` returned leaves the anchor tracked, or removes its group
altogether. So the `std::find` of `GetNextZoneWindow` always finds the anchor:
the step past the end that is undefined in C++ is never taken by
`CycleWindows`. -/
theorem GetNextZoneWindow_anchor_kept (s : State) (hc : Consistent s) (S : ZoneIndexSet)
    (a : HWND) (reverse : Bool) (hf : s.m_windowIndexSet.find a = some S) :
    (Dismiss s (GetNextZoneWindow s S a reverse).1).m_windowIndexSet.find a = some S ∨
    (Dismiss s (GetNextZoneWindow s S a reverse).1).m_windowsByIndexSets.find S = none := by
  obtain ⟨hS, hamem⟩ := hc.indexed a S hf
  obtain ⟨c, rest, _, hnext, hcmem, hlast, hmore⟩ :=
    cycleCandidates_head (s.group S) a reverse (hc.nodup S hS) hamem
  have hfind : s.m_windowsByIndexSets.find S = some (s.group S) :=
    find_of_group_ne_nil s S (fun e => by rw [e] at hamem; simp at hamem)
  have hne : (s.group S).isEmpty = false := by
    cases hg : s.group S with
    | nil => rw [hg] at hamem; simp at hamem
    | cons x l => rfl
  have hnx : (GetNextZoneWindow s S a reverse).1 = c := by
    rw [GetNextZoneWindow_fst_of_find s S _ a reverse hfind]
    simp only [hne, Bool.false_eq_true, if_false]
    exact hnext
  rw [hnx]
  by_cases hrest : rest = []
  · right
    obtain ⟨hga, hca⟩ := hlast hrest
    have hnil : (Dismiss s c).group S = [] := by
      rw [(Dismiss_member s S c hc hS hcmem).1, hga, hca]
      simp
    exact find_of_group_eq_nil _ S (Consistent_Dismiss s c hc).noEmpty hnil
  · left
    rw [Dismiss_find_index]
    simp [(hmore hrest).1, hf]

/-! ## What the topmost resolver returns when it returns a window -/

theorem lowestZOrderWalk_depth (windows : List HWND) (desktop : List HWND) :
    ∀ zOrder : Int, 0 ≤ zOrder →
      0 ≤ (lowestZOrderWalk windows desktop zOrder).2 ∧
      (lowestZOrderWalk windows desktop zOrder).2 ≤ zOrder + desktop.length := by
  induction desktop with
  | nil => intro z hz; simp [lowestZOrderWalk]; omega
  | cons a below ih =>
    intro z hz
    unfold lowestZOrderWalk
    by_cases h0 : a = 0
    · simp only [h0, if_true, List.length_cons]
      omega
    · by_cases hmem : a ∈ windows
      · simp only [h0, hmem, if_false, if_true, List.length_cons]
        omega
      · simp only [h0, hmem, if_false, List.length_cons]
        have := ih (z + 1) (by omega)
        push_cast
        omega

/-- The resolver returns the window that `GetLowestZOrderWindow` reports for a
collected group of least reported depth, as long as the window order has fewer
than `2 ^ 63` entries and no collected group is empty. Whether that is a real
window depends on `GetLowestZOrderWindow` finding a member of the group. -/
theorem topmostLoop_least_depth (desktop : List HWND) (keys : List ZoneIndexSet) :
    ∀ (s : State) (topmostWindow : HWND) (lowestZOrder : Int),
      (∀ k ∈ keys, s.m_windowsByIndexSets.contains k = true ∧ s.group k ≠ []) →
      (((topmostLoop desktop keys s topmostWindow lowestZOrder).1 = topmostWindow ∧
        ∀ k ∈ keys, lowestZOrder ≤ (GetLowestZOrderWindow desktop (s.group k)).2) ∨
      ∃ k ∈ keys,
        (topmostLoop desktop keys s topmostWindow lowestZOrder).1
          = (GetLowestZOrderWindow desktop (s.group k)).1 ∧
        (GetLowestZOrderWindow desktop (s.group k)).2 < lowestZOrder ∧
        ∀ k' ∈ keys, (GetLowestZOrderWindow desktop (s.group k)).2
          ≤ (GetLowestZOrderWindow desktop (s.group k')).2) := by
  induction keys with
  | nil => intro s t l _; left; exact ⟨rfl, by simp⟩
  | cons k rest ih =>
    intro s t l hk
    obtain ⟨hc, hne⟩ := hk k (by simp)
    have hs : ({ s with m_windowsByIndexSets := s.m_windowsByIndexSets.subscript k [] } : State)
        = s := by
      rw [StdMap.subscript_of_contains _ _ _ hc]
    have hsub := StdMap.subscript_of_contains s.m_windowsByIndexSets k [] hc
    have hrest : ∀ k' ∈ rest, s.m_windowsByIndexSets.contains k' = true ∧ s.group k' ≠ [] :=
      fun k' hk' => hk k' (by simp [hk'])
    have hempty : (s.m_windowsByIndexSets.value k []).isEmpty = false := by
      cases hg : s.m_windowsByIndexSets.value k [] with
      | nil => exact absurd hg hne
      | cons x l' => rfl
    unfold topmostLoop
    simp only [hs, hsub, hempty, Bool.false_eq_true, if_false]
    by_cases hlt : (GetLowestZOrderWindow desktop (s.group k)).2 < l
    · have hlt' : (GetLowestZOrderWindow desktop (s.m_windowsByIndexSets.value k [])).2 < l := hlt
      simp only [hlt', if_true]
      rcases ih s (GetLowestZOrderWindow desktop (s.group k)).1
        (GetLowestZOrderWindow desktop (s.group k)).2 hrest with ⟨h1, h2⟩ | ⟨k2, hk2, h1, h2, h3⟩
      · right
        refine ⟨k, by simp, h1, hlt, ?_⟩
        intro k' hk'
        rcases List.mem_cons.mp hk' with e | e
        · rw [e]
        · exact h2 k' e
      · right
        refine ⟨k2, by simp [hk2], h1, by omega, ?_⟩
        intro k' hk'
        rcases List.mem_cons.mp hk' with e | e
        · rw [e]; omega
        · exact h3 k' e
    · have hlt' : ¬ (GetLowestZOrderWindow desktop (s.m_windowsByIndexSets.value k [])).2 < l :=
        hlt
      simp only [hlt', if_false]
      rcases ih s t l hrest with ⟨h1, h2⟩ | ⟨k2, hk2, h1, h2, h3⟩
      · left
        refine ⟨h1, ?_⟩
        intro k' hk'
        rcases List.mem_cons.mp hk' with e | e
        · rw [e]; omega
        · exact h2 k' e
      · right
        refine ⟨k2, by simp [hk2], h1, h2, ?_⟩
        intro k' hk'
        rcases List.mem_cons.mp hk' with e | e
        · rw [e]; omega
        · exact h3 k' e

/-- With no empty group, a window order of fewer than `2 ^ 63 - 1` entries and
at least one qualifying group, the resolver returns what `GetLowestZOrderWindow`
reports for a qualifying group of least reported depth. When every qualifying
group has a member in the window order this is the frontmost window of all of
them; a group without such a member is reported at depth 0 with the null
handle. -/
theorem GetTopmostWindowFromTargetZone_least_depth (desktop : List HWND) (s : State)
    (targetZone : ZoneIndex) (currentWindowZones : ZoneIndexSet) (hne : NoEmptyGroups s)
    (hlen : (desktop.length : Int) < 2 ^ 63 - 1)
    (hq : ∃ entry ∈ s.m_windowsByIndexSets, Qualifies targetZone currentWindowZones entry) :
    ∃ entry ∈ s.m_windowsByIndexSets, Qualifies targetZone currentWindowZones entry ∧
      (GetTopmostWindowFromTargetZone desktop s targetZone currentWindowZones).1
        = (GetLowestZOrderWindow desktop (s.group entry.1)).1 ∧
      ∀ other ∈ s.m_windowsByIndexSets, Qualifies targetZone currentWindowZones other →
        (GetLowestZOrderWindow desktop (s.group entry.1)).2
          ≤ (GetLowestZOrderWindow desktop (s.group other.1)).2 := by
  have hkeys : ∀ k, k ∈ (s.m_windowsByIndexSets.filter
      (fun entry => decide (entry.1 ≠ currentWindowZones) && decide (targetZone ∈ entry.1))).map
      Prod.fst ↔ ∃ entry ∈ s.m_windowsByIndexSets,
        Qualifies targetZone currentWindowZones entry ∧ entry.1 = k := by
    intro k
    simp only [List.mem_map, List.mem_filter, Bool.and_eq_true, decide_eq_true_eq, Qualifies]
    constructor
    · rintro ⟨entry, ⟨hmem, hq1, hq2⟩, hk⟩
      exact ⟨entry, hmem, ⟨hq1, hq2⟩, hk⟩
    · rintro ⟨entry, hmem, ⟨hq1, hq2⟩, hk⟩
      exact ⟨entry, ⟨hmem, hq1, hq2⟩, hk⟩
  obtain ⟨e0, he0, hq0⟩ := hq
  have hk0 := (hkeys e0.1).mpr ⟨e0, he0, hq0, rfl⟩
  have hnonempty : ((s.m_windowsByIndexSets.filter
      (fun entry => decide (entry.1 ≠ currentWindowZones) && decide (targetZone ∈ entry.1))).map
      Prod.fst).isEmpty = false := by
    cases hl : (s.m_windowsByIndexSets.filter
      (fun entry => decide (entry.1 ≠ currentWindowZones) && decide (targetZone ∈ entry.1))).map
      Prod.fst with
    | nil => rw [hl] at hk0; simp at hk0
    | cons x l => rfl
  have hgood : ∀ k ∈ (s.m_windowsByIndexSets.filter
      (fun entry => decide (entry.1 ≠ currentWindowZones) && decide (targetZone ∈ entry.1))).map
      Prod.fst, s.m_windowsByIndexSets.contains k = true ∧ s.group k ≠ [] := by
    intro k hk
    obtain ⟨entry, hmem, _, hek⟩ := (hkeys k).mp hk
    obtain ⟨k1, g1⟩ := entry
    simp only at hek
    subst hek
    have hc := StdMap.contains_of_mem _ _ _ hmem
    refine ⟨hc, ?_⟩
    cases hf : s.m_windowsByIndexSets.find k1 with
    | none => simp [StdMap.contains, hf] at hc
    | some g =>
      have hg : s.group k1 = g := value_eq_of_find _ _ _ _ hf
      rw [hg]
      exact hne (k1, g) (StdMap.mem_of_find _ _ _ hf)
  unfold GetTopmostWindowFromTargetZone
  simp only [hnonempty, Bool.false_eq_true, if_false]
  rcases topmostLoop_least_depth desktop _ s 0 INT64_MAX hgood with ⟨_, h2⟩ | ⟨k, hk, h1, _, h3⟩
  · have hd := h2 e0.1 hk0
    have hb := (lowestZOrderWalk_depth (s.group e0.1) desktop 0 (Int.le_refl 0)).2
    unfold GetLowestZOrderWindow at hd
    unfold INT64_MAX at hd
    omega
  · obtain ⟨entry, hmem, hqe, hek⟩ := (hkeys k).mp hk
    refine ⟨entry, hmem, hqe, ?_, ?_⟩
    · rw [hek]; exact h1
    · intro other hother hqo
      rw [hek]
      exact h3 other.1 ((hkeys other.1).mpr ⟨other, hother, hqo, rfl⟩)

end FancyZones
